import Mathlib

/-!
Verification of a pairing heap implemented with raw pointers
(push / pop / decrease_key over an intrusive multiway tree).

The memory of the program is modelled as a list of optional nodes indexed
by addresses (a `none` entry is freed or never-allocated memory); a null
pointer is `Option.none`.  Every operation of the source is translated
into a function on this explicit memory; a dereference of a null or dead
pointer — undefined behaviour in the source — makes the modelled
operation return `none`.  Field assignments are performed one at a time,
in the order of the source, re-reading the memory between writes, so that
the model agrees with the mutable-memory semantics of the original code.
-/

set_option maxHeartbeats 1000000
set_option linter.unusedSectionVars false

namespace PairingHeap

/-- A heap node: a value and three structural links (`first_child`,
`prev`, `next`), each either absent (null) or the address of another
node.  Mirrors `struct Node<T>` of the source. -/
structure PNode (α : Type) where
  value : α
  first_child : Option Nat
  prev : Option Nat
  next : Option Nat
deriving DecidableEq, Repr

/-- Memory: a list of allocation slots indexed by address. -/
abbrev Mem (α : Type) := List (Option (PNode α))

variable {α : Type} {β : Type}

/-- Read the node at address `a`; `none` when the address is out of range
or the slot has been freed. -/
def mget (m : Mem α) (a : Nat) : Option (PNode α) := m.getD a none

/-- Overwrite the node at address `a`. -/
def mset (m : Mem α) (a : Nat) (n : PNode α) : Mem α := m.set a (some n)

/-- Free the slot at address `a` (the drop of the `Box` in `pop`). -/
def mdel (m : Mem α) (a : Nat) : Mem α := m.set a none

/-- A single field assignment through a pointer: fails (undefined
behaviour) when the pointer does not reference a live node. -/
def updNode (m : Mem α) (a : Nat) (f : PNode α → PNode α) : Option (Mem α) :=
  (mget m a).map fun n => mset m a (f n)

/-- A single field read through a pointer. -/
def readF (m : Mem α) (a : Nat) (f : PNode α → β) : Option β :=
  (mget m a).map f

variable [LinearOrder α]

/-- `compare_and_link` of the source.  `second = none` returns `first`
unchanged.  Otherwise the two roots are compared with the strict order
`second.value < first.value`; the loser is pushed in front of the
winner's child list, each pointer assignment performed in source order. -/
def compare_and_link (m : Mem α) (first second : Option Nat) :
    Option (Option Nat × Mem α) :=
  match second with
  | none => some (first, m)
  | some second =>
    match first with
    | none => none
    | some first => do
      let fv ← readF m first PNode.value
      let sv ← readF m second PNode.value
      if sv < fv then do
        -- second_r.prev = first_r.prev
        let fprev ← readF m first PNode.prev
        let m ← updNode m second fun n => { n with prev := fprev }
        -- first_r.prev = second
        let m ← updNode m first fun n => { n with prev := some second }
        -- first_r.next = second_r.first_child
        let sfc ← readF m second PNode.first_child
        let m ← updNode m first fun n => { n with next := sfc }
        -- if let Some(first_next_r) = into_mut(first_r.next) { first_next_r.prev = first }
        let fnext ← readF m first PNode.next
        let m ← match fnext with
          | none => some m
          | some q => updNode m q fun n => { n with prev := some first }
        -- second_r.first_child = first
        let m ← updNode m second fun n => { n with first_child := some first }
        some (some second, m)
      else do
        -- second_r.prev = first
        let m ← updNode m second fun n => { n with prev := some first }
        -- first_r.next = second_r.next
        let snext ← readF m second PNode.next
        let m ← updNode m first fun n => { n with next := snext }
        -- if let Some(first_next_r) = into_mut(first_r.next) { first_next_r.prev = first }
        let fnext ← readF m first PNode.next
        let m ← match fnext with
          | none => some m
          | some q => updNode m q fun n => { n with prev := some first }
        -- second_r.next = first_r.first_child
        let ffc ← readF m first PNode.first_child
        let m ← updNode m second fun n => { n with next := ffc }
        -- if let Some(second_next_r) = into_mut(second_r.next) { second_next_r.prev = second }
        let snext2 ← readF m second PNode.next
        let m ← match snext2 with
          | none => some m
          | some q => updNode m q fun n => { n with prev := some second }
        -- first_r.first_child = second
        let m ← updNode m first fun n => { n with first_child := some second }
        some (some first, m)

/-- The collection loop of `combine_siblings`: walk the sibling chain,
recording each address and setting the predecessor's `next` to null
(`first_sibling_prev_r.next = ptr::null_mut()`).  The loop follows raw
`next` pointers, so the model carries fuel; in every reachable state the
chain is shorter than the memory and the fuel is never exhausted. -/
def collect : Nat → Mem α → Option Nat → Option (List Nat × Mem α)
  | 0, _, _ => none
  | _ + 1, m, none => some ([], m)
  | fuel + 1, m, some s => do
    let sn ← mget m s
    let p ← sn.prev
    let m ← updNode m p fun n => { n with next := none }
    let sn2 ← mget m s
    let (rest, m) ← collect fuel m sn2.next
    some (s :: rest, m)

/-- The forward pass of `combine_siblings`: `chunk[0] =
compare_and_link(chunk[0], chunk[1])` over consecutive pairs.  The stale
`chunk[1]` entries are kept in place, as in the array the source mutates.
A trailing chunk of one element would index out of bounds in the source
(`chunk[1]`), modelled by `none`; the padded sequence is always of even
length so this never happens. -/
def forward_pass (m : Mem α) :
    List (Option Nat) → Option (List (Option Nat) × Mem α)
  | [] => some ([], m)
  | [_] => none
  | a :: b :: rest => do
    let (r, m) ← compare_and_link m a b
    let (rs, m) ← forward_pass m rest
    some (r :: b :: rs, m)

/-- The backward pass of `combine_siblings`: starting from the rightmost
pair result walk left in steps of two, `tree_array[start_idx] =
compare_and_link(tree_array[start_idx], tree_array[end_idx])`; the
accumulated value is what the source leaves in `tree_array[0]`.  Entries
at odd indexes are the stale `chunk[1]` values, never read. -/
def backward_pass (m : Mem α) :
    List (Option Nat) → Option (Option Nat × Mem α)
  | [] => none
  | [a] => some (a, m)
  | [a, _] => some (a, m)
  | a :: _ :: rest => do
    let (r, m) ← backward_pass m rest
    compare_and_link m a r

/-- `combine_siblings` of the source: early return when the first
sibling has no `next`; otherwise collect the chain, pad with one null,
truncate to even logical length, then run the forward and backward
passes and return the tree left at index 0. -/
def combine_siblings (m : Mem α) (first_sibling : Nat) :
    Option (Option Nat × Mem α) := do
  let fn ← mget m first_sibling
  if fn.next = none then
    some (some first_sibling, m)
  else do
    let (arr, m) ← collect (m.length + 1) m (some first_sibling)
    let tree_array := arr.map some ++ [none]
    let logical_length := tree_array.length / 2 * 2
    let tree_array := tree_array.take logical_length
    let (tree_array, m) ← forward_pass m tree_array
    backward_pass m tree_array

/-- The heap: an optional root address and the memory holding the nodes.
The scratch vector reused by `combine_siblings` in the source carries no
information between operations (it is cleared on entry) and is not part
of the state. -/
structure Heap (α : Type) where
  root : Option Nat
  mem : Mem α
deriving DecidableEq, Repr

/-- A token is the address of the node returned by `push`. -/
abbrev Token := Nat

/-- `Heap::new`. -/
def Heap.new : Heap α := ⟨none, []⟩

/-- `Heap::push`: allocate a fresh node at the next address and link it
with the current root (or make it the root when the heap is empty);
returns the new heap and the token of the inserted node. -/
def Heap.push (h : Heap α) (value : α) : Option (Heap α × Token) :=
  let node := h.mem.length
  let m := h.mem ++ [some (PNode.mk value none none none)]
  match h.root with
  | none => some (⟨some node, m⟩, node)
  | some r =>
    (compare_and_link m (some r) (some node)).map fun rm => (⟨rm.1, rm.2⟩, node)

/-- `Heap::pop`: empty heap returns `none` and the heap unchanged;
otherwise the root is detached, its child list (if any) is rebuilt by
`combine_siblings`, the root's memory is freed (the drop of the `Box` at
the end of `pop`) and its value returned. -/
def Heap.pop (h : Heap α) : Option (Option α × Heap α) :=
  match h.root with
  | none => some (none, h)
  | some r => do
    let root_r ← mget h.mem r
    match root_r.first_child with
    | none => some (some root_r.value, ⟨none, mdel h.mem r⟩)
    | some fc => do
      let (nr, m) ← combine_siblings h.mem fc
      some (some root_r.value, ⟨nr, mdel m r⟩)

/-- The unlinking fragment of `decrease_key` (everything between the
root check and the final link): re-point the right sibling's `prev`,
then skip the node from either its parent's `first_child` or its left
sibling's `next` (decided by `node_prev_r.first_child == node`), then
null the node's own `next`. -/
def unlink_node (m : Mem α) (token : Token) : Option (Mem α) := do
  let node_r ← mget m token
  -- if let Some(p_next_r) = into_mut(node_r.next) { p_next_r.prev = node_r.prev }
  let m ← match node_r.next with
    | none => some m
    | some q => updNode m q fun n => { n with prev := node_r.prev }
  let node_r2 ← mget m token
  -- let node_prev_r = &mut *node_r.prev
  let p ← node_r2.prev
  let node_prev_r ← mget m p
  let m ←
    if node_prev_r.first_child = some token then
      updNode m p fun n => { n with first_child := node_r2.next }
    else
      updNode m p fun n => { n with next := node_r2.next }
  -- node_r.next = ptr::null_mut()
  updNode m token fun n => { n with next := none }

/-- `Heap::decrease_key`: apply the mutation to the node's value; if the
node is the root nothing else happens; otherwise unlink the node from
its position and link the freed subtree with the root. -/
def Heap.decrease_key (h : Heap α) (token : Token) (f : α → α) :
    Option (Heap α) := do
  -- f(&mut node_r.value)
  let m ← updNode h.mem token fun n => { n with value := f n.value }
  if some token = h.root then
    some ⟨h.root, m⟩
  else do
    let m ← unlink_node m token
    let (nr, m) ← compare_and_link m h.root (some token)
    some ⟨nr, m⟩

/-- Pop `fuel` more times at most, collecting values until `pop`
reports the heap empty. -/
def drain : Nat → Heap α → Option (List α)
  | 0, h => match h.root with | none => some [] | some _ => none
  | fuel + 1, h =>
    match h.pop with
    | some (none, _) => some []
    | some (some v, h2) => (drain fuel h2).map (v :: ·)
    | none => none

/-- Call `pop` exactly `k` times, returning the list of results. -/
def popN : Nat → Heap α → Option (List (Option α) × Heap α)
  | 0, h => some ([], h)
  | k + 1, h => do
    let (v, h2) ← h.pop
    let (vs, h3) ← popN k h2
    some (v :: vs, h3)

/-- Push every value of the list in order, discarding the tokens. -/
def pushAll (h : Heap α) : List α → Option (Heap α)
  | [] => some h
  | v :: vs => do
    let (h2, _) ← h.push v
    pushAll h2 vs

/-- An interleaved sequence of push and pop operations. -/
inductive Op (α : Type) where
  | push (v : α)
  | pop
deriving DecidableEq, Repr

/-- Run a sequence of operations, accumulating the values returned by
successful pops. -/
def run : Heap α → List α → List (Op α) → Option (Heap α × List α)
  | h, outs, [] => some (h, outs)
  | h, outs, Op.push v :: ops => do
    let (h2, _) ← h.push v
    run h2 outs ops
  | h, outs, Op.pop :: ops => do
    let (v, h2) ← h.pop
    match v with
    | none => run h2 outs ops
    | some x => run h2 (outs ++ [x]) ops

/-- The values pushed by a sequence of operations. -/
def pushedVals : List (Op α) → List α
  | [] => []
  | Op.push v :: ops => v :: pushedVals ops
  | Op.pop :: ops => pushedVals ops

/-!
## Abstraction: the forest the pointers draw

`RT` is a multiway tree of addressed nodes; the representation
predicates below say that a memory lays out such a tree through the
`first_child` / `prev` / `next` links, with the dual meaning of `prev`
(parent for a leftmost child, left sibling otherwise).
-/

/-- An addressed multiway tree: root address, root value, ordered
children. -/
inductive RT (α : Type) where
  | node (a : Nat) (v : α) (cs : List (RT α))

/-- Root address of a tree. -/
def RT.addr : RT α → Nat
  | .node a _ _ => a

/-- Root value of a tree. -/
def RT.val : RT α → α
  | .node _ v _ => v

/-- Children of the root. -/
def RT.cs : RT α → List (RT α)
  | .node _ _ cs => cs

theorem RT.addr_node (a : Nat) (v : α) (cs : List (RT α)) :
    (RT.node a v cs).addr = a := rfl

theorem RT.val_node (a : Nat) (v : α) (cs : List (RT α)) :
    (RT.node a v cs).val = v := rfl

theorem RT.cs_node (a : Nat) (v : α) (cs : List (RT α)) :
    (RT.node a v cs).cs = cs := rfl

/-- Address of the head of a child list, as an optional pointer. -/
def headAddr : List (RT α) → Option Nat
  | [] => none
  | c :: _ => some c.addr

mutual
/-- Addresses of all nodes of a tree. -/
def addrsT : RT α → List Nat
  | .node a _ cs => a :: addrsF cs
/-- Addresses of all nodes of a forest. -/
def addrsF : List (RT α) → List Nat
  | [] => []
  | c :: rest => addrsT c ++ addrsF rest
end

mutual
/-- Values of all nodes of a tree. -/
def valuesT : RT α → List α
  | .node _ v cs => v :: valuesF cs
/-- Values of all nodes of a forest. -/
def valuesF : List (RT α) → List α
  | [] => []
  | c :: rest => valuesT c ++ valuesF rest
end

mutual
/-- The memory lays the tree out: the root node is at `t.addr` with the
given `prev` and `next` pointers, `first_child` pointing at the head of
the child list, and the children are laid out as a sibling chain. -/
def treeRep (m : Mem α) : RT α → Option Nat → Option Nat → Prop
  | .node a v cs, pv, nx =>
    mget m a = some (PNode.mk v (headAddr cs) pv nx) ∧ sibRep m a cs
/-- A sibling chain hanging from `p`: the first sibling's `prev` is `p`
(its parent), every later sibling's `prev` is its left sibling, and each
`next` is the following sibling (absent for the last). -/
def sibRep (m : Mem α) (p : Nat) : List (RT α) → Prop
  | [] => True
  | c :: rest => treeRep m c (some p) (headAddr rest) ∧ sibRep m c.addr rest
end

/-- A detached root: laid out with null `next` and an arbitrary (stale)
`prev`. -/
def rootRep (m : Mem α) (t : RT α) : Prop :=
  ∃ pv, treeRep m t pv none

mutual
/-- Min-heap order: every child's value is not less than its parent's. -/
def heapOrd [LinearOrder α] : RT α → Prop
  | .node _ v cs => heapOrdF v cs
/-- Min-heap order for a forest under an upper root value `v`. -/
def heapOrdF [LinearOrder α] (v : α) : List (RT α) → Prop
  | [] => True
  | c :: rest => v ≤ c.val ∧ heapOrd c ∧ heapOrdF v rest
end

/-- The functional content of `compare_and_link` on detached trees: the
root with the strictly smaller value wins (the first argument wins
ties), and the loser is pushed in front of the winner's child list. -/
def linkTree [LinearOrder α] (t1 t2 : RT α) : RT α :=
  if t2.val < t1.val then
    .node t2.addr t2.val (t1 :: t2.cs)
  else
    .node t1.addr t1.val (t2 :: t1.cs)

/-- The functional content of the forward pass: link consecutive pairs
left to right (a trailing odd element is the result of linking with the
null pad, i.e. unchanged). -/
def pairPass [LinearOrder α] : List (RT α) → List (RT α)
  | [] => []
  | [t] => [t]
  | a :: b :: rest => linkTree a b :: pairPass rest

/-- The functional content of the backward pass: link the accumulated
result of the right part into the element on its left, rightmost pair
first. -/
def backAcc [LinearOrder α] : RT α → List (RT α) → RT α
  | t, [] => t
  | t, u :: rest => linkTree t (backAcc u rest)

/-- The functional content of `combine_siblings` on a nonempty child
list. -/
def combTree [LinearOrder α] (c : RT α) (cs : List (RT α)) : RT α :=
  match pairPass (c :: cs) with
  | [] => c
  | r :: rs => backAcc r rs

mutual
/-- Update the value of the node at address `a`. -/
def updVal (a : Nat) (f : α → α) : RT α → RT α
  | .node b v cs => .node b (if b = a then f v else v) (updValF a f cs)
/-- Update the value of the node at address `a` in a forest. -/
def updValF (a : Nat) (f : α → α) : List (RT α) → List (RT α)
  | [] => []
  | c :: rest => updVal a f c :: updValF a f rest
end

mutual
/-- Remove the subtree rooted at address `a` from a tree (the root
itself is never removed); returns the removed subtree and the
remainder. -/
def cutT (a : Nat) : RT α → Option (RT α × RT α)
  | .node b v cs =>
    (cutF a cs).map fun p => (p.1, .node b v p.2)
/-- Remove the subtree rooted at address `a` from a forest. -/
def cutF (a : Nat) : List (RT α) → Option (RT α × List (RT α))
  | [] => none
  | c :: rest =>
    if c.addr = a then some (c, rest)
    else
      match cutT a c with
      | some (s, c2) => some (s, c2 :: rest)
      | none => (cutF a rest).map fun p => (p.1, c :: p.2)
end

/-- Number of nodes of a tree. -/
def sizeT (t : RT α) : Nat := (addrsT t).length

/-- Structural invariant of a heap state: either the heap is empty and
every memory slot is dead, or the memory lays out exactly one tree whose
root is the heap's root, the live slots are exactly the tree's
addresses, and no address repeats. -/
def InvT (h : Heap α) (t : RT α) : Prop :=
  h.root = some t.addr ∧ rootRep h.mem t ∧
    (∀ a, (mget h.mem a).isSome = true ↔ a ∈ addrsT t) ∧
    (addrsT t).Nodup

/-- Structural invariant, with the tree existential. -/
def Inv (h : Heap α) : Prop :=
  (h.root = none ∧ ∀ a, mget h.mem a = none) ∨ (∃ t, InvT h t)

/-- Invariant together with min-heap order. -/
def InvOrd [LinearOrder α] (h : Heap α) : Prop :=
  (h.root = none ∧ ∀ a, mget h.mem a = none) ∨ (∃ t, InvT h t ∧ heapOrd t)

/-!
## Memory access lemmas
-/

theorem mget_lt_length {m : Mem α} {a : Nat} {n : PNode α}
    (h : mget m a = some n) : a < m.length := by
  by_contra hlt
  rw [mget, List.getD_eq_getElem?_getD, List.getElem?_eq_none (Nat.le_of_not_lt hlt)] at h
  simp at h

theorem mget_mset_self {m : Mem α} {a : Nat} {n0 : PNode α}
    (h : mget m a = some n0) (n : PNode α) : mget (mset m a n) a = some n := by
  rw [mget, mset, List.getD_eq_getElem?_getD,
    List.getElem?_set_self (by simpa using mget_lt_length h)]
  rfl

theorem mget_mset_ne (m : Mem α) {a b : Nat} (h : b ≠ a) (n : PNode α) :
    mget (mset m a n) b = mget m b := by
  rw [mget, mget, mset, List.getD_eq_getElem?_getD, List.getD_eq_getElem?_getD,
    List.getElem?_set_ne (Ne.symm h)]

theorem length_mset (m : Mem α) (a : Nat) (n : PNode α) :
    (mset m a n).length = m.length := List.length_set ..

theorem isSome_mget_mset {m : Mem α} {a : Nat} {n0 : PNode α}
    (h : mget m a = some n0) (n : PNode α) (b : Nat) :
    (mget (mset m a n) b).isSome = (mget m b).isSome := by
  rcases eq_or_ne b a with rfl | hne
  · rw [mget_mset_self h n, h]; rfl
  · rw [mget_mset_ne m hne n]

theorem mget_mdel_self (m : Mem α) (a : Nat) : mget (mdel m a) a = none := by
  rw [mget, mdel, List.getD_eq_getElem?_getD]
  rcases Nat.lt_or_ge a m.length with hlt | hge
  · rw [List.getElem?_set_self (by simpa using hlt)]; rfl
  · rw [List.getElem?_eq_none (by simpa using hge)]; rfl

theorem mget_mdel_ne (m : Mem α) {a b : Nat} (h : b ≠ a) :
    mget (mdel m a) b = mget m b := by
  rw [mget, mget, mdel, List.getD_eq_getElem?_getD, List.getD_eq_getElem?_getD,
    List.getElem?_set_ne (Ne.symm h)]

theorem mget_append_self (m : Mem α) (x : Option (PNode α)) :
    mget (m ++ [x]) m.length = x := by
  rw [mget, List.getD_eq_getElem?_getD, List.getElem?_append_right (Nat.le_refl _)]
  simp

theorem mget_append_ne (m : Mem α) (x : Option (PNode α)) {a : Nat}
    (h : a ≠ m.length) : mget (m ++ [x]) a = mget m a := by
  rw [mget, mget, List.getD_eq_getElem?_getD, List.getD_eq_getElem?_getD,
    List.getElem?_append]
  rcases Nat.lt_or_ge a m.length with hlt | hge
  · rw [if_pos hlt]
  · rw [if_neg (Nat.not_lt.mpr hge),
      List.getElem?_eq_none (l := m) hge]
    have h1 : 1 ≤ a - m.length := Nat.le_sub_of_add_le (by omega)
    rw [List.getElem?_eq_none (l := [x]) (by simpa using h1)]

theorem mget_of_dead {m : Mem α} (hdead : ∀ a, mget m a = none)
    (a : Nat) : mget (m ++ [x]) a = if a = m.length then x else none := by
  rcases eq_or_ne a m.length with rfl | hne
  · rw [if_pos rfl, mget_append_self]
  · rw [if_neg hne, mget_append_ne m x hne, hdead]

/-!
## Tree induction and pure lemmas
-/

/-- Strong induction over `RT` with membership hypotheses for the
children. -/
theorem RT.ind {motive : RT α → Prop}
    (h : ∀ a v cs, (∀ c ∈ cs, motive c) → motive (RT.node a v cs)) :
    ∀ t, motive t
  | .node a v cs => h a v cs (fun c hc => RT.ind h c)
termination_by t => sizeOf t
decreasing_by
  simp_wf
  have h1 := List.sizeOf_lt_of_mem hc
  omega

theorem addrsT_def (a : Nat) (v : α) (cs : List (RT α)) :
    addrsT (RT.node a v cs) = a :: addrsF cs := by
  rw [addrsT]

theorem valuesT_def (a : Nat) (v : α) (cs : List (RT α)) :
    valuesT (RT.node a v cs) = v :: valuesF cs := by
  rw [valuesT]

theorem addr_mem_addrsT (t : RT α) : t.addr ∈ addrsT t := by
  cases t with
  | node a v cs => rw [addrsT_def]; exact List.mem_cons_self _ _

theorem addrsF_append (cs ds : List (RT α)) :
    addrsF (cs ++ ds) = addrsF cs ++ addrsF ds := by
  induction cs with
  | nil => rw [addrsF]; simp
  | cons c rest ih => simp [addrsF, ih]

theorem valuesF_append (cs ds : List (RT α)) :
    valuesF (cs ++ ds) = valuesF cs ++ valuesF ds := by
  induction cs with
  | nil => rw [valuesF]; simp
  | cons c rest ih => simp [valuesF, ih]

theorem mem_addrsF {c : RT α} {cs : List (RT α)} (hc : c ∈ cs) :
    ∀ x ∈ addrsT c, x ∈ addrsF cs := by
  induction cs with
  | nil => cases hc
  | cons d rest ih =>
    intro x hx
    rw [addrsF, List.mem_append]
    cases hc with
    | head => exact Or.inl hx
    | tail _ hmem => exact Or.inr (ih hmem x hx)

/-!
## Frame lemmas: representation only depends on the tree's own slots
-/

theorem sibRep_congr {m m' : Mem α}
    (cs : List (RT α))
    (ih : ∀ c ∈ cs, ∀ pv nx, (∀ a ∈ addrsT c, mget m' a = mget m a) →
      treeRep m c pv nx → treeRep m' c pv nx) :
    ∀ (p : Nat), (∀ a ∈ addrsF cs, mget m' a = mget m a) →
      sibRep m p cs → sibRep m' p cs := by
  induction cs with
  | nil => intro p _ _; rw [sibRep]; trivial
  | cons c rest ihl =>
    intro p hag hrep
    rw [sibRep] at hrep ⊢
    refine ⟨ih c (List.mem_cons_self ..) _ _ (fun a ha => hag a ?_) hrep.1,
      ihl (fun d hd => ih d (List.mem_cons_of_mem _ hd)) c.addr
        (fun a ha => hag a ?_) hrep.2⟩
    · rw [addrsF]; exact List.mem_append_left _ ha
    · rw [addrsF]; exact List.mem_append_right _ ha

theorem treeRep_congr {m m' : Mem α} (t : RT α) : ∀ (pv nx : Option Nat),
    (∀ a ∈ addrsT t, mget m' a = mget m a) →
    treeRep m t pv nx → treeRep m' t pv nx := by
  induction t using RT.ind with
  | _ a v cs ih =>
    intro pv nx hag hrep
    rw [treeRep] at hrep ⊢
    refine ⟨?_, sibRep_congr cs ih a
      (fun a' ha' => hag a' (by rw [addrsT]; exact List.mem_cons_of_mem _ ha'))
      hrep.2⟩
    rw [hag a (by rw [addrsT]; exact List.mem_cons_self ..)]
    exact hrep.1

theorem sibRep_frame {m m' : Mem α} (cs : List (RT α)) (p : Nat)
    (hag : ∀ a ∈ addrsF cs, mget m' a = mget m a)
    (h : sibRep m p cs) : sibRep m' p cs :=
  sibRep_congr cs (fun c _ pv nx hag' => treeRep_congr c pv nx hag') p hag h

theorem sibRep_live {m : Mem α} (cs : List (RT α))
    (ih : ∀ c ∈ cs, ∀ pv nx, treeRep m c pv nx →
      ∀ a ∈ addrsT c, (mget m a).isSome = true) :
    ∀ (p : Nat), sibRep m p cs → ∀ a ∈ addrsF cs, (mget m a).isSome = true := by
  induction cs with
  | nil => intro p _ a ha; rw [addrsF] at ha; cases ha
  | cons c rest ihl =>
    intro p hrep a ha
    rw [sibRep] at hrep
    rw [addrsF, List.mem_append] at ha
    rcases ha with ha | ha
    · exact ih c (List.mem_cons_self ..) _ _ hrep.1 a ha
    · exact ihl (fun d hd => ih d (List.mem_cons_of_mem _ hd)) c.addr hrep.2 a ha

theorem treeRep_live {m : Mem α} (t : RT α) : ∀ (pv nx : Option Nat),
    treeRep m t pv nx → ∀ a ∈ addrsT t, (mget m a).isSome = true := by
  induction t using RT.ind with
  | _ a v cs ih =>
    intro pv nx hrep b hb
    rw [treeRep] at hrep
    rw [addrsT] at hb
    cases hb with
    | head => rw [hrep.1]; rfl
    | tail _ hb => exact sibRep_live cs ih a hrep.2 b hb

/-- Re-point the `prev` and `next` fields of the root node of a
represented tree. -/
theorem treeRep_retarget {m : Mem α} {a : Nat} {v : α} {cs : List (RT α)}
    {pv nx : Option Nat} (hrep : treeRep m (.node a v cs) pv nx)
    (ha : a ∉ addrsF cs) (pv' nx' : Option Nat) :
    treeRep (mset m a (PNode.mk v (headAddr cs) pv' nx'))
      (.node a v cs) pv' nx' := by
  rw [treeRep] at hrep ⊢
  refine ⟨mget_mset_self hrep.1 _, sibRep_frame cs a ?_ hrep.2⟩
  intro b hb
  exact mget_mset_ne m (by rintro rfl; exact ha hb) _

/-!
## Pure lemmas about the functional link
-/

theorem addrsT_linkTree (t1 t2 : RT α) :
    (addrsT (linkTree t1 t2)).Perm (addrsT t1 ++ addrsT t2) := by
  cases t1 with
  | node a1 v1 cs1 =>
    cases t2 with
    | node a2 v2 cs2 =>
      rw [linkTree]
      split
      · rw [addrsT_def, addrsF, addrsT_def a2 v2 cs2]
        exact (List.perm_middle (a := a2)).symm
      · rw [addrsT_def, addrsF, addrsT_def a1 v1 cs1]
        exact List.Perm.cons a1 (List.perm_append_comm)

theorem valuesT_linkTree (t1 t2 : RT α) :
    (valuesT (linkTree t1 t2)).Perm (valuesT t1 ++ valuesT t2) := by
  cases t1 with
  | node a1 v1 cs1 =>
    cases t2 with
    | node a2 v2 cs2 =>
      rw [linkTree]
      split
      · rw [valuesT_def, valuesF, valuesT_def a2 v2 cs2]
        exact (List.perm_middle (a := v2)).symm
      · rw [valuesT_def, valuesF, valuesT_def a1 v1 cs1]
        exact List.Perm.cons v1 (List.perm_append_comm)

theorem heapOrd_linkTree {t1 t2 : RT α} (h1 : heapOrd t1) (h2 : heapOrd t2) :
    heapOrd (linkTree t1 t2) := by
  cases t1 with
  | node a1 v1 cs1 =>
    cases t2 with
    | node a2 v2 cs2 =>
      rw [linkTree]
      rw [heapOrd] at h1 h2
      split
      · rename_i hlt
        rw [heapOrd, heapOrdF]
        exact ⟨le_of_lt hlt, by rw [heapOrd]; exact h1, h2⟩
      · rename_i hlt
        rw [heapOrd, heapOrdF]
        exact ⟨le_of_not_lt hlt, by rw [heapOrd]; exact h2, h1⟩

theorem heapOrdF_min {m0 : α} (cs : List (RT α))
    (ih : ∀ c ∈ cs, heapOrd c → ∀ x ∈ valuesT c, c.val ≤ x) :
    heapOrdF m0 cs → ∀ x ∈ valuesF cs, m0 ≤ x := by
  induction cs with
  | nil => intro _ x hx; rw [valuesF] at hx; cases hx
  | cons c rest ihl =>
    intro hord x hx
    rw [heapOrdF] at hord
    rw [valuesF, List.mem_append] at hx
    rcases hx with hx | hx
    · exact le_trans hord.1 (ih c (List.mem_cons_self ..) hord.2.1 x hx)
    · exact ihl (fun d hd => ih d (List.mem_cons_of_mem _ hd)) hord.2.2 x hx

/-- The root of a heap-ordered tree is a minimum of its values. -/
theorem heapOrd_min (t : RT α) : heapOrd t → ∀ x ∈ valuesT t, t.val ≤ x := by
  induction t using RT.ind with
  | _ a v cs ih =>
    intro hord x hx
    rw [heapOrd] at hord
    rw [valuesT] at hx
    cases hx with
    | head => exact le_refl _
    | tail _ hx => exact heapOrdF_min cs ih hord x hx

/-!
## The specification of compare_and_link
-/

theorem readF_eq {m : Mem α} {a : Nat} {n : PNode α} (h : mget m a = some n)
    (f : PNode α → β) : readF m a f = some (f n) := by rw [readF, h]; rfl

theorem updNode_eq {m : Mem α} {a : Nat} {n : PNode α} (h : mget m a = some n)
    (f : PNode α → PNode α) : updNode m a f = some (mset m a (f n)) := by
  rw [updNode, h]; rfl

/-- The root node of a represented tree. -/
theorem treeRep_node {m : Mem α} {t : RT α} {pv nx : Option Nat}
    (h : treeRep m t pv nx) :
    mget m t.addr = some (PNode.mk t.val (headAddr t.cs) pv nx) := by
  cases t with
  | node a v cs => rw [treeRep] at h; exact h.1

/-- Re-point the `prev` and `next` fields of the root of a represented
tree (general form). -/
theorem treeRep_retarget2 {m : Mem α} {t : RT α} {pv nx : Option Nat}
    (hrep : treeRep m t pv nx) (ha : t.addr ∉ addrsF t.cs)
    (pv' nx' : Option Nat) :
    treeRep (mset m t.addr (PNode.mk t.val (headAddr t.cs) pv' nx'))
      t pv' nx' := by
  cases t with
  | node a v cs => exact treeRep_retarget hrep ha pv' nx'

theorem addr_not_mem_cs {c : RT α} (h : (addrsT c).Nodup) :
    c.addr ∉ addrsF c.cs := by
  cases c with
  | node a v cs =>
    rw [addrsT_def, List.nodup_cons] at h
    exact h.1

/-- What `compare_and_link` does to two represented, detached,
address-disjoint trees: it returns the functional link of the two, lays
it out in memory with the first tree's `prev` at the new root, touches
no slot outside the two trees, and frees or allocates nothing. -/
theorem compare_and_link_spec {m : Mem α} {t1 t2 : RT α}
    {pv1 pv2 : Option Nat}
    (h1 : treeRep m t1 pv1 none) (h2 : treeRep m t2 pv2 none)
    (hnd : (addrsT t1 ++ addrsT t2).Nodup) :
    ∃ m', compare_and_link m (some t1.addr) (some t2.addr) =
        some (some (linkTree t1 t2).addr, m') ∧
      treeRep m' (linkTree t1 t2) pv1 none ∧
      (∀ b, b ∉ addrsT t1 → b ∉ addrsT t2 → mget m' b = mget m b) ∧
      (∀ b, (mget m' b).isSome = (mget m b).isSome) := by
  obtain ⟨a1, v1, cs1⟩ := t1
  obtain ⟨a2, v2, cs2⟩ := t2
  have h1get : mget m a1 = some (PNode.mk v1 (headAddr cs1) pv1 none) := by
    rw [treeRep] at h1; exact h1.1
  have h1sib : sibRep m a1 cs1 := by rw [treeRep] at h1; exact h1.2
  have h2get : mget m a2 = some (PNode.mk v2 (headAddr cs2) pv2 none) := by
    rw [treeRep] at h2; exact h2.1
  have h2sib : sibRep m a2 cs2 := by rw [treeRep] at h2; exact h2.2
  rw [addrsT_def, addrsT_def, List.nodup_append, List.nodup_cons,
    List.nodup_cons] at hnd
  obtain ⟨⟨h1c1, hnd1⟩, ⟨h2c2, hnd2⟩, hdisj⟩ := hnd
  have hne12 : a1 ≠ a2 := fun h =>
    hdisj (List.mem_cons_self ..) (h ▸ List.mem_cons_self ..)
  have h1c2 : a1 ∉ addrsF cs2 := fun h =>
    hdisj (List.mem_cons_self ..) (List.mem_cons_of_mem _ h)
  have h2c1 : a2 ∉ addrsF cs1 := fun h =>
    hdisj (List.mem_cons_of_mem _ h) (List.mem_cons_self ..)
  have hdisj12 : ∀ x ∈ addrsF cs1, x ∉ addrsF cs2 := fun x hx hy =>
    hdisj (List.mem_cons_of_mem _ hx) (List.mem_cons_of_mem _ hy)
  simp only [RT.addr, RT.val, RT.cs, linkTree]
  by_cases hlt : v2 < v1
  · -- second wins: a2 becomes the root, t1 its new leftmost child
    rw [if_pos hlt]
    cases cs2 with
    | nil =>
      simp only [headAddr] at h2get
      set M1 : Mem α := mset m a2 (PNode.mk v2 none pv1 none) with hM1
      have g1a1 : mget M1 a1 = some (PNode.mk v1 (headAddr cs1) pv1 none) := by
        rw [hM1, mget_mset_ne m hne12, h1get]
      set M2 : Mem α := mset M1 a1 (PNode.mk v1 (headAddr cs1) (some a2) none)
        with hM2
      have g2a2 : mget M2 a2 = some (PNode.mk v2 none pv1 none) := by
        rw [hM2, mget_mset_ne M1 (Ne.symm hne12), hM1, mget_mset_self h2get]
      have g2a1 : mget M2 a1 =
          some (PNode.mk v1 (headAddr cs1) (some a2) none) := by
        rw [hM2, mget_mset_self g1a1]
      set M3 : Mem α := mset M2 a1 (PNode.mk v1 (headAddr cs1) (some a2) none)
        with hM3
      have g3a1 : mget M3 a1 =
          some (PNode.mk v1 (headAddr cs1) (some a2) none) := by
        rw [hM3, mget_mset_self g2a1]
      have g3a2 : mget M3 a2 = some (PNode.mk v2 none pv1 none) := by
        rw [hM3, mget_mset_ne M2 (Ne.symm hne12), g2a2]
      set M5 : Mem α := mset M3 a2 (PNode.mk v2 (some a1) pv1 none) with hM5
      refine ⟨M5, ?_, ?_, ?_, ?_⟩
      · rw [compare_and_link]
        simp only [Option.bind_eq_bind, Option.some_bind, if_pos hlt,
          readF_eq h1get, readF_eq h2get, updNode_eq h2get, ← hM1,
          readF_eq g1a1, updNode_eq g1a1, ← hM2,
          readF_eq g2a2, readF_eq g2a1, updNode_eq g2a1, ← hM3,
          readF_eq g3a1, readF_eq g3a2, updNode_eq g3a2, ← hM5]
      · rw [treeRep, headAddr, RT.addr]
        constructor
        · rw [hM5, mget_mset_self g3a2]
        · rw [sibRep, treeRep, headAddr]
          refine ⟨⟨?_, ?_⟩, trivial⟩
          · rw [hM5, mget_mset_ne M3 hne12, g3a1]
          · refine sibRep_frame cs1 a1 ?_ h1sib
            intro b hb
            have hb1 : b ≠ a1 := fun h => h1c1 (h ▸ hb)
            have hb2 : b ≠ a2 := fun h => h2c1 (h ▸ hb)
            rw [hM5, mget_mset_ne M3 hb2, hM3, mget_mset_ne M2 hb1, hM2,
              mget_mset_ne M1 hb1, hM1, mget_mset_ne m hb2]
      · intro b hb1' hb2'
        rw [addrsT_def, List.mem_cons] at hb1' hb2'
        push_neg at hb1' hb2'
        rw [hM5, mget_mset_ne M3 hb2'.1, hM3, mget_mset_ne M2 hb1'.1, hM2,
          mget_mset_ne M1 hb1'.1, hM1, mget_mset_ne m hb2'.1]
      · intro b
        rw [hM5, isSome_mget_mset g3a2, hM3, isSome_mget_mset g2a1, hM2,
          isSome_mget_mset g1a1, hM1, isSome_mget_mset h2get]
    | cons c rest =>
      rw [sibRep] at h2sib
      rw [addrsF, List.nodup_append] at hnd2
      have hccs : c.addr ∉ addrsF c.cs := addr_not_mem_cs hnd2.1
      have hcrest : c.addr ∉ addrsF rest := fun h =>
        hnd2.2.2 (addr_mem_addrsT c) h
      have hcmem : c.addr ∈ addrsF (c :: rest) := by
        rw [addrsF]; exact List.mem_append_left _ (addr_mem_addrsT c)
      have hca1 : c.addr ≠ a1 := fun h => h1c2 (h ▸ hcmem)
      have hca2 : c.addr ≠ a2 := fun h => h2c2 (h ▸ hcmem)
      have hgc : mget m c.addr =
          some (PNode.mk c.val (headAddr c.cs) (some a2) (headAddr rest)) :=
        treeRep_node h2sib.1
      simp only [headAddr] at h2get
      set M1 : Mem α := mset m a2 (PNode.mk v2 (some c.addr) pv1 none)
        with hM1
      have g1a1 : mget M1 a1 = some (PNode.mk v1 (headAddr cs1) pv1 none) := by
        rw [hM1, mget_mset_ne m hne12, h1get]
      set M2 : Mem α := mset M1 a1 (PNode.mk v1 (headAddr cs1) (some a2) none)
        with hM2
      have g2a2 : mget M2 a2 = some (PNode.mk v2 (some c.addr) pv1 none) := by
        rw [hM2, mget_mset_ne M1 (Ne.symm hne12), hM1, mget_mset_self h2get]
      have g2a1 : mget M2 a1 =
          some (PNode.mk v1 (headAddr cs1) (some a2) none) := by
        rw [hM2, mget_mset_self g1a1]
      set M3 : Mem α := mset M2 a1
        (PNode.mk v1 (headAddr cs1) (some a2) (some c.addr)) with hM3
      have g3a1 : mget M3 a1 =
          some (PNode.mk v1 (headAddr cs1) (some a2) (some c.addr)) := by
        rw [hM3, mget_mset_self g2a1]
      have g3a2 : mget M3 a2 = some (PNode.mk v2 (some c.addr) pv1 none) := by
        rw [hM3, mget_mset_ne M2 (Ne.symm hne12), g2a2]
      have g3c : mget M3 c.addr =
          some (PNode.mk c.val (headAddr c.cs) (some a2) (headAddr rest)) := by
        rw [hM3, mget_mset_ne M2 hca1, hM2, mget_mset_ne M1 hca1, hM1,
          mget_mset_ne m hca2, hgc]
      set M4 : Mem α := mset M3 c.addr
        (PNode.mk c.val (headAddr c.cs) (some a1) (headAddr rest)) with hM4
      have g4a2 : mget M4 a2 = some (PNode.mk v2 (some c.addr) pv1 none) := by
        rw [hM4, mget_mset_ne M3 (Ne.symm hca2), g3a2]
      have g4a1 : mget M4 a1 =
          some (PNode.mk v1 (headAddr cs1) (some a2) (some c.addr)) := by
        rw [hM4, mget_mset_ne M3 (Ne.symm hca1), g3a1]
      set M5 : Mem α := mset M4 a2 (PNode.mk v2 (some a1) pv1 none) with hM5
      have hframe : ∀ b, b ≠ a1 → b ≠ a2 → b ∉ addrsF (c :: rest) →
          mget M5 b = mget m b := by
        intro b hb1 hb2 hbc
        have hbca : b ≠ c.addr := fun h => hbc (h ▸ hcmem)
        rw [hM5, mget_mset_ne M4 hb2, hM4, mget_mset_ne M3 hbca, hM3,
          mget_mset_ne M2 hb1, hM2, mget_mset_ne M1 hb1, hM1,
          mget_mset_ne m hb2]
      refine ⟨M5, ?_, ?_, ?_, ?_⟩
      · rw [compare_and_link]
        simp only [Option.bind_eq_bind, Option.some_bind, if_pos hlt,
          readF_eq h1get, readF_eq h2get, updNode_eq h2get, ← hM1,
          readF_eq g1a1, updNode_eq g1a1, ← hM2,
          readF_eq g2a2, readF_eq g2a1, updNode_eq g2a1, ← hM3,
          readF_eq g3a1, updNode_eq g3c, ← hM4,
          readF_eq g4a2, updNode_eq g4a2, ← hM5]
      · rw [treeRep, headAddr, RT.addr]
        constructor
        · rw [hM5, mget_mset_self g4a2]
        · rw [sibRep, treeRep]
          refine ⟨⟨?_, ?_⟩, ?_, ?_⟩
          · rw [headAddr, hM5, mget_mset_ne M4 hne12, g4a1]
          · -- the children of t1 are untouched
            refine sibRep_frame cs1 a1 ?_ h1sib
            intro b hb
            have hb1 : b ≠ a1 := fun h => h1c1 (h ▸ hb)
            have hb2 : b ≠ a2 := fun h => h2c1 (h ▸ hb)
            exact hframe b hb1 hb2 (hdisj12 b hb)
          · -- the old first child of t2, re-pointed at t1's root
            have hrep3 : treeRep M3 c (some a2) (headAddr rest) := by
              refine treeRep_congr c _ _ ?_ h2sib.1
              intro b hb
              have hbmem : b ∈ addrsF (c :: rest) := by
                rw [addrsF]; exact List.mem_append_left _ hb
              have hb1 : b ≠ a1 := fun h => h1c2 (h ▸ hbmem)
              have hb2 : b ≠ a2 := fun h => h2c2 (h ▸ hbmem)
              rw [hM3, mget_mset_ne M2 hb1, hM2, mget_mset_ne M1 hb1, hM1,
                mget_mset_ne m hb2]
            have hrep4 := treeRep_retarget2 hrep3 hccs (some a1) (headAddr rest)
            rw [← hM4] at hrep4
            refine treeRep_congr c _ _ ?_ hrep4
            intro b hb
            have hb2 : b ≠ a2 := fun h => h2c2 (h ▸ (by
              rw [addrsF]; exact List.mem_append_left _ hb :
                b ∈ addrsF (c :: rest)))
            rw [hM5, mget_mset_ne M4 hb2]
          · -- the rest of t2's child chain is untouched
            refine sibRep_frame rest c.addr ?_ h2sib.2
            intro b hb
            have hbmem : b ∈ addrsF (c :: rest) := by
              rw [addrsF]; exact List.mem_append_right _ hb
            have hb1 : b ≠ a1 := fun h => h1c2 (h ▸ hbmem)
            have hb2 : b ≠ a2 := fun h => h2c2 (h ▸ hbmem)
            have hbca : b ≠ c.addr := fun h => hcrest (h ▸ hb)
            rw [hM5, mget_mset_ne M4 hb2, hM4, mget_mset_ne M3 hbca, hM3,
              mget_mset_ne M2 hb1, hM2, mget_mset_ne M1 hb1, hM1,
              mget_mset_ne m hb2]
      · intro b hb1' hb2'
        rw [addrsT_def, List.mem_cons] at hb1' hb2'
        push_neg at hb1' hb2'
        exact hframe b hb1'.1 hb2'.1 hb2'.2
      · intro b
        rw [hM5, isSome_mget_mset g4a2, hM4, isSome_mget_mset g3c, hM3,
          isSome_mget_mset g2a1, hM2, isSome_mget_mset g1a1, hM1,
          isSome_mget_mset h2get]
  · -- first wins: a1 stays the root, t2 its new leftmost child
    rw [if_neg hlt]
    cases cs1 with
    | nil =>
      simp only [headAddr] at h1get
      set M1 : Mem α := mset m a2 (PNode.mk v2 (headAddr cs2) (some a1) none)
        with hM1
      have g1a2 : mget M1 a2 =
          some (PNode.mk v2 (headAddr cs2) (some a1) none) := by
        rw [hM1, mget_mset_self h2get]
      have g1a1 : mget M1 a1 = some (PNode.mk v1 none pv1 none) := by
        rw [hM1, mget_mset_ne m hne12, h1get]
      set M2 : Mem α := mset M1 a1 (PNode.mk v1 none pv1 none) with hM2
      have g2a1 : mget M2 a1 = some (PNode.mk v1 none pv1 none) := by
        rw [hM2, mget_mset_self g1a1]
      have g2a2 : mget M2 a2 =
          some (PNode.mk v2 (headAddr cs2) (some a1) none) := by
        rw [hM2, mget_mset_ne M1 (Ne.symm hne12), g1a2]
      set M3 : Mem α := mset M2 a2 (PNode.mk v2 (headAddr cs2) (some a1) none)
        with hM3
      have g3a2 : mget M3 a2 =
          some (PNode.mk v2 (headAddr cs2) (some a1) none) := by
        rw [hM3, mget_mset_self g2a2]
      have g3a1 : mget M3 a1 = some (PNode.mk v1 none pv1 none) := by
        rw [hM3, mget_mset_ne M2 hne12, g2a1]
      set M5 : Mem α := mset M3 a1 (PNode.mk v1 (some a2) pv1 none) with hM5
      refine ⟨M5, ?_, ?_, ?_, ?_⟩
      · rw [compare_and_link]
        simp only [Option.bind_eq_bind, Option.some_bind, if_neg hlt,
          readF_eq h1get, readF_eq h2get, updNode_eq h2get, ← hM1,
          readF_eq g1a2, readF_eq g1a1, updNode_eq g1a1, ← hM2,
          readF_eq g2a1, readF_eq g2a2, updNode_eq g2a2, ← hM3,
          readF_eq g3a2, readF_eq g3a1, updNode_eq g3a1, ← hM5]
      · rw [treeRep, headAddr, RT.addr]
        constructor
        · rw [hM5, mget_mset_self g3a1]
        · rw [sibRep, treeRep]
          refine ⟨⟨?_, ?_⟩, trivial⟩
          · rw [headAddr, hM5, mget_mset_ne M3 (Ne.symm hne12), g3a2]
          · refine sibRep_frame cs2 a2 ?_ h2sib
            intro b hb
            have hb1 : b ≠ a1 := fun h => h1c2 (h ▸ hb)
            have hb2 : b ≠ a2 := fun h => h2c2 (h ▸ hb)
            rw [hM5, mget_mset_ne M3 hb1, hM3, mget_mset_ne M2 hb2, hM2,
              mget_mset_ne M1 hb1, hM1, mget_mset_ne m hb2]
      · intro b hb1' hb2'
        rw [addrsT_def, List.mem_cons] at hb1' hb2'
        push_neg at hb1' hb2'
        rw [hM5, mget_mset_ne M3 hb1'.1, hM3, mget_mset_ne M2 hb2'.1, hM2,
          mget_mset_ne M1 hb1'.1, hM1, mget_mset_ne m hb2'.1]
      · intro b
        rw [hM5, isSome_mget_mset g3a1, hM3, isSome_mget_mset g2a2, hM2,
          isSome_mget_mset g1a1, hM1, isSome_mget_mset h2get]
    | cons c rest =>
      rw [sibRep] at h1sib
      rw [addrsF, List.nodup_append] at hnd1
      have hccs : c.addr ∉ addrsF c.cs := addr_not_mem_cs hnd1.1
      have hcrest : c.addr ∉ addrsF rest := fun h =>
        hnd1.2.2 (addr_mem_addrsT c) h
      have hcmem : c.addr ∈ addrsF (c :: rest) := by
        rw [addrsF]; exact List.mem_append_left _ (addr_mem_addrsT c)
      have hca1 : c.addr ≠ a1 := fun h => h1c1 (h ▸ hcmem)
      have hca2 : c.addr ≠ a2 := fun h => h2c1 (h ▸ hcmem)
      have hgc : mget m c.addr =
          some (PNode.mk c.val (headAddr c.cs) (some a1) (headAddr rest)) :=
        treeRep_node h1sib.1
      simp only [headAddr] at h1get
      set M1 : Mem α := mset m a2 (PNode.mk v2 (headAddr cs2) (some a1) none)
        with hM1
      have g1a2 : mget M1 a2 =
          some (PNode.mk v2 (headAddr cs2) (some a1) none) := by
        rw [hM1, mget_mset_self h2get]
      have g1a1 : mget M1 a1 = some (PNode.mk v1 (some c.addr) pv1 none) := by
        rw [hM1, mget_mset_ne m hne12, h1get]
      set M2 : Mem α := mset M1 a1 (PNode.mk v1 (some c.addr) pv1 none)
        with hM2
      have g2a1 : mget M2 a1 = some (PNode.mk v1 (some c.addr) pv1 none) := by
        rw [hM2, mget_mset_self g1a1]
      have g2a2 : mget M2 a2 =
          some (PNode.mk v2 (headAddr cs2) (some a1) none) := by
        rw [hM2, mget_mset_ne M1 (Ne.symm hne12), g1a2]
      set M3 : Mem α := mset M2 a2
        (PNode.mk v2 (headAddr cs2) (some a1) (some c.addr)) with hM3
      have g3a2 : mget M3 a2 =
          some (PNode.mk v2 (headAddr cs2) (some a1) (some c.addr)) := by
        rw [hM3, mget_mset_self g2a2]
      have g3a1 : mget M3 a1 = some (PNode.mk v1 (some c.addr) pv1 none) := by
        rw [hM3, mget_mset_ne M2 hne12, g2a1]
      have g3c : mget M3 c.addr =
          some (PNode.mk c.val (headAddr c.cs) (some a1) (headAddr rest)) := by
        rw [hM3, mget_mset_ne M2 hca2, hM2, mget_mset_ne M1 hca1, hM1,
          mget_mset_ne m hca2, hgc]
      set M4 : Mem α := mset M3 c.addr
        (PNode.mk c.val (headAddr c.cs) (some a2) (headAddr rest)) with hM4
      have g4a1 : mget M4 a1 = some (PNode.mk v1 (some c.addr) pv1 none) := by
        rw [hM4, mget_mset_ne M3 (Ne.symm hca1), g3a1]
      have g4a2 : mget M4 a2 =
          some (PNode.mk v2 (headAddr cs2) (some a1) (some c.addr)) := by
        rw [hM4, mget_mset_ne M3 (Ne.symm hca2), g3a2]
      set M5 : Mem α := mset M4 a1 (PNode.mk v1 (some a2) pv1 none) with hM5
      have hframe : ∀ b, b ≠ a1 → b ≠ a2 → b ∉ addrsF (c :: rest) →
          mget M5 b = mget m b := by
        intro b hb1 hb2 hbc
        have hbca : b ≠ c.addr := fun h => hbc (h ▸ hcmem)
        rw [hM5, mget_mset_ne M4 hb1, hM4, mget_mset_ne M3 hbca, hM3,
          mget_mset_ne M2 hb2, hM2, mget_mset_ne M1 hb1, hM1,
          mget_mset_ne m hb2]
      refine ⟨M5, ?_, ?_, ?_, ?_⟩
      · rw [compare_and_link]
        simp only [Option.bind_eq_bind, Option.some_bind, if_neg hlt,
          readF_eq h1get, readF_eq h2get, updNode_eq h2get, ← hM1,
          readF_eq g1a2, readF_eq g1a1, updNode_eq g1a1, ← hM2,
          readF_eq g2a1, readF_eq g2a2, updNode_eq g2a2, ← hM3,
          readF_eq g3a2, updNode_eq g3c, ← hM4,
          readF_eq g4a1, updNode_eq g4a1, ← hM5]
      · rw [treeRep, headAddr, RT.addr]
        constructor
        · rw [hM5, mget_mset_self g4a1]
        · rw [sibRep, treeRep]
          refine ⟨⟨?_, ?_⟩, ?_, ?_⟩
          · rw [headAddr, hM5, mget_mset_ne M4 (Ne.symm hne12), g4a2]
          · -- the children of t2 are untouched
            refine sibRep_frame cs2 a2 ?_ h2sib
            intro b hb
            have hb1 : b ≠ a1 := fun h => h1c2 (h ▸ hb)
            have hb2 : b ≠ a2 := fun h => h2c2 (h ▸ hb)
            exact hframe b hb1 hb2 (fun hmem => hdisj12 b hmem hb)
          · -- the old first child of t1, re-pointed at t2's root
            have hrep3 : treeRep M3 c (some a1) (headAddr rest) := by
              refine treeRep_congr c _ _ ?_ h1sib.1
              intro b hb
              have hbmem : b ∈ addrsF (c :: rest) := by
                rw [addrsF]; exact List.mem_append_left _ hb
              have hb1 : b ≠ a1 := fun h => h1c1 (h ▸ hbmem)
              have hb2 : b ≠ a2 := fun h => h2c1 (h ▸ hbmem)
              rw [hM3, mget_mset_ne M2 hb2, hM2, mget_mset_ne M1 hb1, hM1,
                mget_mset_ne m hb2]
            have hrep4 := treeRep_retarget2 hrep3 hccs (some a2) (headAddr rest)
            rw [← hM4] at hrep4
            refine treeRep_congr c _ _ ?_ hrep4
            intro b hb
            have hb1 : b ≠ a1 := fun h => h1c1 (h ▸ (by
              rw [addrsF]; exact List.mem_append_left _ hb :
                b ∈ addrsF (c :: rest)))
            rw [hM5, mget_mset_ne M4 hb1]
          · -- the rest of t1's child chain is untouched
            refine sibRep_frame rest c.addr ?_ h1sib.2
            intro b hb
            have hbmem : b ∈ addrsF (c :: rest) := by
              rw [addrsF]; exact List.mem_append_right _ hb
            have hb1 : b ≠ a1 := fun h => h1c1 (h ▸ hbmem)
            have hb2 : b ≠ a2 := fun h => h2c1 (h ▸ hbmem)
            have hbca : b ≠ c.addr := fun h => hcrest (h ▸ hb)
            rw [hM5, mget_mset_ne M4 hb1, hM4, mget_mset_ne M3 hbca, hM3,
              mget_mset_ne M2 hb2, hM2, mget_mset_ne M1 hb1, hM1,
              mget_mset_ne m hb2]
      · intro b hb1' hb2'
        rw [addrsT_def, List.mem_cons] at hb1' hb2'
        push_neg at hb1' hb2'
        exact hframe b hb1'.1 hb2'.1 hb1'.2
      · intro b
        rw [hM5, isSome_mget_mset g4a1, hM4, isSome_mget_mset g3c, hM3,
          isSome_mget_mset g2a2, hM2, isSome_mget_mset g1a1, hM1,
          isSome_mget_mset h2get]

/-!
## Pure lemmas about the two passes
-/

theorem addrsF_pairPass : ∀ ts : List (RT α),
    (addrsF (pairPass ts)).Perm (addrsF ts)
  | [] => by rw [pairPass]
  | [t] => by rw [pairPass]
  | a :: b :: rest => by
    rw [pairPass, addrsF, addrsF, addrsF]
    have h := (addrsT_linkTree a b).append (addrsF_pairPass rest)
    rw [List.append_assoc] at h
    exact h

theorem valuesF_pairPass : ∀ ts : List (RT α),
    (valuesF (pairPass ts)).Perm (valuesF ts)
  | [] => by rw [pairPass]
  | [t] => by rw [pairPass]
  | a :: b :: rest => by
    rw [pairPass, valuesF, valuesF, valuesF]
    have h := (valuesT_linkTree a b).append (valuesF_pairPass rest)
    rw [List.append_assoc] at h
    exact h

theorem heapOrd_pairPass : ∀ ts : List (RT α),
    (∀ t ∈ ts, heapOrd t) → ∀ t ∈ pairPass ts, heapOrd t
  | [], _ => by rw [pairPass]; intro t ht; cases ht
  | [t0], h => by rw [pairPass]; exact h
  | a :: b :: rest, h => by
    rw [pairPass]
    intro t ht
    cases ht with
    | head =>
      exact heapOrd_linkTree (h a (List.mem_cons_self ..))
        (h b (List.mem_cons_of_mem _ (List.mem_cons_self ..)))
    | tail _ ht =>
      exact heapOrd_pairPass rest
        (fun u hu =>
          h u (List.mem_cons_of_mem _ (List.mem_cons_of_mem _ hu))) t ht

theorem addrsT_backAcc : ∀ (t : RT α) (ts : List (RT α)),
    (addrsT (backAcc t ts)).Perm (addrsT t ++ addrsF ts)
  | t, [] => by rw [backAcc, addrsF]; simp
  | t, u :: rest => by
    rw [backAcc, addrsF]
    have h1 := addrsT_linkTree t (backAcc u rest)
    have h2 := (addrsT_backAcc u rest).append_left (addrsT t)
    exact h1.trans h2

theorem valuesT_backAcc : ∀ (t : RT α) (ts : List (RT α)),
    (valuesT (backAcc t ts)).Perm (valuesT t ++ valuesF ts)
  | t, [] => by rw [backAcc, valuesF]; simp
  | t, u :: rest => by
    rw [backAcc, valuesF]
    have h1 := valuesT_linkTree t (backAcc u rest)
    have h2 := (valuesT_backAcc u rest).append_left (valuesT t)
    exact h1.trans h2

theorem heapOrd_backAcc : ∀ (t : RT α) (ts : List (RT α)),
    heapOrd t → (∀ u ∈ ts, heapOrd u) → heapOrd (backAcc t ts)
  | t, [], ht, _ => by rw [backAcc]; exact ht
  | t, u :: rest, ht, hts => by
    rw [backAcc]
    exact heapOrd_linkTree ht
      (heapOrd_backAcc u rest (hts u (List.mem_cons_self ..))
        (fun w hw => hts w (List.mem_cons_of_mem _ hw)))

theorem pairPass_cons (c : RT α) (cs : List (RT α)) :
    ∃ r rs, pairPass (c :: cs) = r :: rs := by
  cases cs with
  | nil => exact ⟨c, [], by rw [pairPass]⟩
  | cons b rest => exact ⟨linkTree c b, pairPass rest, by rw [pairPass]⟩

theorem addrsT_combTree (c : RT α) (cs : List (RT α)) :
    (addrsT (combTree c cs)).Perm (addrsF (c :: cs)) := by
  obtain ⟨r, rs, hpp⟩ := pairPass_cons c cs
  rw [combTree, hpp]
  have h1 := addrsT_backAcc r rs
  have h2 : (addrsT r ++ addrsF rs : List Nat) = addrsF (r :: rs) := by
    rw [addrsF]
  rw [h2, ← hpp] at h1
  exact h1.trans (addrsF_pairPass _)

theorem valuesT_combTree (c : RT α) (cs : List (RT α)) :
    (valuesT (combTree c cs)).Perm (valuesF (c :: cs)) := by
  obtain ⟨r, rs, hpp⟩ := pairPass_cons c cs
  rw [combTree, hpp]
  have h1 := valuesT_backAcc r rs
  have h2 : (valuesT r ++ valuesF rs : List α) = valuesF (r :: rs) := by
    rw [valuesF]
  rw [h2, ← hpp] at h1
  exact h1.trans (valuesF_pairPass _)

theorem heapOrd_combTree (c : RT α) (cs : List (RT α))
    (h : ∀ t ∈ c :: cs, heapOrd t) : heapOrd (combTree c cs) := by
  obtain ⟨r, rs, hpp⟩ := pairPass_cons c cs
  rw [combTree, hpp]
  have hall := heapOrd_pairPass (c :: cs) h
  rw [hpp] at hall
  exact heapOrd_backAcc r rs (hall r (List.mem_cons_self ..))
    (fun u hu => hall u (List.mem_cons_of_mem _ hu))

/-!
## Severed sibling chains and pass input and output encodings
-/

/-- The state of the collected sibling roots after the collection loop:
each keeps its original `prev` (its old left neighbour, the stale
predecessor link), and its `next` has been nulled by its right
neighbour's iteration. -/
def sevRep (m : Mem α) : Nat → List (RT α) → Prop
  | _, [] => True
  | pv, c :: rest => treeRep m c (some pv) none ∧ sevRep m c.addr rest

/-- Every tree of the forest is laid out, detached (null `next`,
arbitrary `prev`). -/
def rootsRep (m : Mem α) : List (RT α) → Prop
  | [] => True
  | t :: rest => rootRep m t ∧ rootsRep m rest

theorem sevRep_rootsRep {m : Mem α} : ∀ {p : Nat} {cs : List (RT α)},
    sevRep m p cs → rootsRep m cs := by
  intro p cs
  induction cs generalizing p with
  | nil => intro _; rw [rootsRep]; trivial
  | cons c rest ih =>
    intro h
    rw [sevRep] at h
    rw [rootsRep]
    exact ⟨⟨some p, h.1⟩, ih h.2⟩

theorem rootsRep_frame {m m' : Mem α} : ∀ (ts : List (RT α)),
    (∀ b ∈ addrsF ts, mget m' b = mget m b) → rootsRep m ts →
    rootsRep m' ts := by
  intro ts
  induction ts with
  | nil => intro _ _; rw [rootsRep]; trivial
  | cons t rest ih =>
    intro hag h
    rw [rootsRep] at h ⊢
    obtain ⟨⟨pv, hrep⟩, hrest⟩ := h
    refine ⟨⟨pv, treeRep_congr t _ _ (fun b hb => hag b ?_) hrep⟩,
      ih (fun b hb => hag b ?_) hrest⟩
    · rw [addrsF]; exact List.mem_append_left _ hb
    · rw [addrsF]; exact List.mem_append_right _ hb

/-- The shape of the padded input of the forward pass: the addresses of
the severed trees in order, with a single null pad closing an odd tail. -/
inductive PadIn : List (Option Nat) → List (RT α) → Prop
  | nil : PadIn [] []
  | single (t : RT α) : PadIn [some t.addr, none] [t]
  | cons (a b : RT α) (arr : List (Option Nat)) (ts : List (RT α)) :
      PadIn arr ts → PadIn (some a.addr :: some b.addr :: arr) (a :: b :: ts)

/-- The shape of the output of the forward pass: pair results at even
indexes, stale slots at odd indexes. -/
inductive BackIn : List (Option Nat) → List (RT α) → Prop
  | nil : BackIn [] []
  | cons (t : RT α) (x : Option Nat) (arr : List (Option Nat))
      (ts : List (RT α)) :
      BackIn arr ts → BackIn (some t.addr :: x :: arr) (t :: ts)

/-- The padding and truncation of `combine_siblings` produce exactly a
`PadIn` encoding of the sibling list. -/
theorem padIn_of_map : ∀ ts : List (RT α),
    PadIn (((List.map RT.addr ts).map some ++ [none]).take
      (((List.map RT.addr ts).map some ++ [none]).length / 2 * 2)) ts
  | [] => by simp; exact PadIn.nil
  | [t] => by simp; exact PadIn.single t
  | a :: b :: rest => by
    have ih := padIn_of_map rest
    simp only [List.map_cons, List.cons_append, List.length_cons]
    have harith :
        (((List.map RT.addr rest).map some ++ [none]).length + 1 + 1) / 2 * 2 =
        ((List.map RT.addr rest).map some ++ [none]).length / 2 * 2 + 1 + 1 := by
      omega
    rw [harith, List.take_succ_cons, List.take_succ_cons]
    exact PadIn.cons a b _ rest ih

/-!
## The specification of the collection loop
-/

theorem collect_spec (rest : List (RT α)) :
    ∀ (c : RT α) (p : Nat) (pn : PNode α) (m : Mem α) (fuel : Nat),
    sibRep m p (c :: rest) → mget m p = some pn →
    (addrsF (c :: rest)).Nodup → p ∉ addrsF (c :: rest) →
    (c :: rest).length < fuel →
    ∃ m', collect fuel m (some c.addr) =
        some ((c :: rest).map RT.addr, m') ∧
      sevRep m' p (c :: rest) ∧
      mget m' p = some { pn with next := none } ∧
      (∀ b, b ≠ p → b ∉ addrsF (c :: rest) → mget m' b = mget m b) ∧
      (∀ b, (mget m' b).isSome = (mget m b).isSome) := by
  induction rest with
  | nil =>
    intro c p pn m fuel hsib hp hnd hpnot hfuel
    obtain ⟨ca, cv, ccs⟩ := c
    simp only [RT.addr_node] at hsib hnd hpnot ⊢
    rw [sibRep, headAddr] at hsib
    have hgc : mget m ca =
        some (PNode.mk cv (headAddr ccs) (some p) none) := by
      have := treeRep_node hsib.1
      simpa [RT.addr_node, RT.val_node, RT.cs_node] using this
    have hpc : p ≠ ca := by
      intro h
      apply hpnot
      rw [addrsF, addrsF, List.append_nil, h]
      exact addr_mem_addrsT (RT.node ca cv ccs)
    obtain ⟨f, rfl⟩ : ∃ f, fuel = f + 2 := ⟨fuel - 2, by simp at hfuel; omega⟩
    set M1 : Mem α := mset m p { pn with next := none } with hM1
    have g1c : mget M1 ca =
        some (PNode.mk cv (headAddr ccs) (some p) none) := by
      rw [hM1, mget_mset_ne m (Ne.symm hpc), hgc]
    refine ⟨M1, ?_, ?_, ?_, ?_, ?_⟩
    · simp only [collect, Option.bind_eq_bind, Option.some_bind, hgc,
        updNode_eq hp, ← hM1, g1c, List.map_cons, List.map_nil, RT.addr_node]
    · rw [sevRep, sevRep]
      refine ⟨?_, trivial⟩
      refine treeRep_congr _ _ _ ?_ hsib.1
      intro b hb
      have hbp : b ≠ p := by
        intro h
        apply hpnot
        rw [addrsF, addrsF, List.append_nil, ← h]
        exact hb
      rw [hM1, mget_mset_ne m hbp]
    · rw [hM1, mget_mset_self hp]
    · intro b hbp _
      rw [hM1, mget_mset_ne m hbp]
    · intro b
      rw [hM1, isSome_mget_mset hp]
  | cons c2 rest2 ih =>
    intro c p pn m fuel hsib hp hnd hpnot hfuel
    obtain ⟨ca, cv, ccs⟩ := c
    simp only [RT.addr_node] at hsib hnd hpnot ⊢
    rw [sibRep, headAddr] at hsib
    have hgc : mget m ca =
        some (PNode.mk cv (headAddr ccs) (some p) (some c2.addr)) := by
      have := treeRep_node hsib.1
      simpa [RT.addr_node, RT.val_node, RT.cs_node] using this
    have hcT : ca ∈ addrsT (RT.node ca cv ccs) :=
      addr_mem_addrsT (RT.node ca cv ccs)
    have hmemF : ∀ b ∈ addrsT (RT.node ca cv ccs),
        b ∈ addrsF (RT.node ca cv ccs :: c2 :: rest2) := by
      intro b hb
      rw [addrsF]
      exact List.mem_append_left _ hb
    have hpc : p ≠ ca := fun h => hpnot (by rw [h]; exact hmemF ca hcT)
    rw [addrsF, List.nodup_append] at hnd
    have hprest : p ∉ addrsF (c2 :: rest2) := by
      intro h
      apply hpnot
      rw [addrsF]
      exact List.mem_append_right _ h
    have hcrest : ca ∉ addrsF (c2 :: rest2) := fun h => hnd.2.2 hcT h
    obtain ⟨f, rfl⟩ : ∃ f, fuel = f + 1 := ⟨fuel - 1, by omega⟩
    set M1 : Mem α := mset m p { pn with next := none } with hM1
    have g1c : mget M1 ca =
        some (PNode.mk cv (headAddr ccs) (some p) (some c2.addr)) := by
      rw [hM1, mget_mset_ne m (Ne.symm hpc), hgc]
    have hsib1 : sibRep M1 ca (c2 :: rest2) := by
      have hs0 : sibRep m ca (c2 :: rest2) := by
        have := hsib.2
        simpa [RT.addr_node] using this
      refine sibRep_frame _ _ ?_ hs0
      intro b hb
      have hbp : b ≠ p := fun h => hprest (h ▸ hb)
      rw [hM1, mget_mset_ne m hbp]
    obtain ⟨m2, hrec, hsev2, hgc2, hframe2, hlive2⟩ :=
      ih c2 ca (PNode.mk cv (headAddr ccs) (some p) (some c2.addr)) M1 f
        hsib1 g1c hnd.2.1 hcrest (by simp at hfuel ⊢; omega)
    refine ⟨m2, ?_, ?_, ?_, ?_, ?_⟩
    · simp only [collect, Option.bind_eq_bind, Option.some_bind, hgc,
        updNode_eq hp, ← hM1, g1c, hrec, List.map_cons, RT.addr_node]
    · rw [sevRep]
      constructor
      · -- the first sibling: next nulled by the second's iteration
        rw [treeRep]
        constructor
        · have := hgc2
          simpa [RT.addr_node] using this
        · -- children of the first sibling are untouched
          have hs0 : sibRep m ca ccs := by
            have := hsib.1
            rw [treeRep] at this
            exact this.2
          refine sibRep_frame _ _ ?_ hs0
          intro b hb
          have hbT : b ∈ addrsT (RT.node ca cv ccs) := by
            rw [addrsT]
            exact List.mem_cons_of_mem _ hb
          have hbp : b ≠ p := by
            intro h
            apply hpnot
            rw [← h]
            exact hmemF b hbT
          have hbca : b ≠ ca := by
            intro h
            have hnodc := hnd.1
            rw [addrsT_def, List.nodup_cons] at hnodc
            exact hnodc.1 (h ▸ hb)
          have hbrest : b ∉ addrsF (c2 :: rest2) := fun h =>
            hnd.2.2 hbT h
          rw [hframe2 b hbca hbrest, hM1, mget_mset_ne m hbp]
      · have := hsev2
        simpa [RT.addr_node] using this
    · rw [hframe2 p hpc hprest, hM1, mget_mset_self hp]
    · intro b hbp hbn
      have hbca : b ≠ ca := by
        intro h
        apply hbn
        rw [h]
        exact hmemF ca hcT
      have hbrest : b ∉ addrsF (c2 :: rest2) := by
        intro h
        apply hbn
        rw [addrsF]
        exact List.mem_append_right _ h
      rw [hframe2 b hbca hbrest, hM1, mget_mset_ne m hbp]
    · intro b
      rw [hlive2 b, hM1, isSome_mget_mset hp]

/-!
## The specifications of the forward and backward passes
-/

theorem forward_pass_spec {arr : List (Option Nat)} {ts : List (RT α)}
    (hpad : PadIn arr ts) : ∀ {m : Mem α},
    rootsRep m ts → (addrsF ts).Nodup →
    ∃ arr' m', forward_pass m arr = some (arr', m') ∧
      BackIn arr' (pairPass ts) ∧
      rootsRep m' (pairPass ts) ∧
      (∀ b, b ∉ addrsF ts → mget m' b = mget m b) ∧
      (∀ b, (mget m' b).isSome = (mget m b).isSome) := by
  induction hpad with
  | nil =>
    intro m _ _
    refine ⟨[], m, by rw [forward_pass], ?_, ?_, fun _ _ => rfl, fun _ => rfl⟩
    · rw [pairPass]; exact BackIn.nil
    · rw [pairPass, rootsRep]; trivial
  | single t =>
    intro m hreps hnd
    refine ⟨[some t.addr, none], m, ?_, ?_, ?_, fun _ _ => rfl, fun _ => rfl⟩
    · simp only [forward_pass, compare_and_link, Option.bind_eq_bind,
        Option.some_bind]
    · rw [pairPass]
      exact BackIn.cons t none [] [] BackIn.nil
    · rw [pairPass]; exact hreps
  | cons a b arr0 ts0 hpad0 ih =>
    intro m hreps hnd
    rw [rootsRep, rootsRep] at hreps
    obtain ⟨⟨pva, hrepa⟩, ⟨pvb, hrepb⟩, hrests⟩ := hreps
    rw [addrsF, addrsF, List.nodup_append] at hnd
    obtain ⟨hnda, hndrest, hdisja⟩ := hnd
    rw [List.nodup_append] at hndrest
    obtain ⟨hndb, hndts, hdisjb⟩ := hndrest
    have hndab : (addrsT a ++ addrsT b).Nodup := by
      rw [List.nodup_append]
      exact ⟨hnda, hndb,
        fun x hx hy => hdisja hx (List.mem_append_left _ hy)⟩
    obtain ⟨m1, hcal, hrepl, hframe1, hlive1⟩ :=
      compare_and_link_spec hrepa hrepb hndab
    have hrests1 : rootsRep m1 ts0 := by
      refine rootsRep_frame ts0 ?_ hrests
      intro x hx
      refine hframe1 x ?_ ?_
      · exact fun hxa => hdisja hxa (List.mem_append_right _ hx)
      · exact fun hxb => hdisjb hxb hx
    obtain ⟨arr2, m2, hrun2, hback2, hreps2, hframe2, hlive2⟩ :=
      ih hrests1 hndts
    refine ⟨some (linkTree a b).addr :: some b.addr :: arr2, m2, ?_, ?_, ?_,
      ?_, ?_⟩
    · simp only [forward_pass, Option.bind_eq_bind, Option.some_bind, hcal,
        hrun2]
    · rw [pairPass]
      exact BackIn.cons (linkTree a b) (some b.addr) arr2 (pairPass ts0) hback2
    · rw [pairPass, rootsRep]
      constructor
      · refine ⟨pva, treeRep_congr _ _ _ ?_ hrepl⟩
        intro x hx
        have hx' : x ∈ addrsT a ++ addrsT b :=
          (addrsT_linkTree a b).mem_iff.mp hx
        refine hframe2 x ?_
        intro hxts
        rcases List.mem_append.mp hx' with hxa | hxb
        · exact hdisja hxa (List.mem_append_right _ hxts)
        · exact hdisjb hxb hxts
      · exact hreps2
    · intro x hx
      rw [addrsF, addrsF] at hx
      have hxa : x ∉ addrsT a := fun h =>
        hx (List.mem_append_left _ h)
      have hxb : x ∉ addrsT b := fun h =>
        hx (List.mem_append_right _ (List.mem_append_left _ h))
      have hxts : x ∉ addrsF ts0 := fun h =>
        hx (List.mem_append_right _ (List.mem_append_right _ h))
      rw [hframe2 x hxts, hframe1 x hxa hxb]
    · intro x
      rw [hlive2 x, hlive1 x]

theorem backward_pass_spec : ∀ (rest : List (RT α)) {arr : List (Option Nat)}
    {t : RT α} {m : Mem α}, BackIn arr (t :: rest) →
    rootsRep m (t :: rest) → (addrsF (t :: rest)).Nodup →
    ∃ m', backward_pass m arr = some (some (backAcc t rest).addr, m') ∧
      rootRep m' (backAcc t rest) ∧
      (∀ b, b ∉ addrsF (t :: rest) → mget m' b = mget m b) ∧
      (∀ b, (mget m' b).isSome = (mget m b).isSome) := by
  intro rest
  induction rest with
  | nil =>
    intro arr t m hback hreps _
    cases hback with
    | cons t x arr0 ts0 h0 =>
      cases h0
      rw [rootsRep] at hreps
      refine ⟨m, ?_, ?_, fun _ _ => rfl, fun _ => rfl⟩
      · rw [backward_pass, backAcc]
      · rw [backAcc]; exact hreps.1
  | cons u rest2 ih =>
    intro arr t m hback hreps hnd
    cases hback with
    | cons t x arr0 ts0 h0 =>
      rw [rootsRep] at hreps
      obtain ⟨⟨pvt, hrept⟩, hrests⟩ := hreps
      rw [addrsF, List.nodup_append] at hnd
      obtain ⟨hndt, hndrest, hdisjt⟩ := hnd
      obtain ⟨m2, hrun2, ⟨pvacc, hrepacc⟩, hframe2, hlive2⟩ :=
        ih h0 hrests hndrest
      have hrept2 : treeRep m2 t pvt none := by
        refine treeRep_congr _ _ _ ?_ hrept
        intro y hy
        exact hframe2 y (fun hmem => hdisjt hy hmem)
      have hndlink : (addrsT t ++ addrsT (backAcc u rest2)).Nodup := by
        have hperm : (addrsT t ++ addrsF (u :: rest2)).Perm
            (addrsT t ++ addrsT (backAcc u rest2)) :=
          ((addrsT_backAcc u rest2).append_left (addrsT t)).symm
        refine hperm.nodup_iff.mp ?_
        rw [List.nodup_append]
        exact ⟨hndt, hndrest, hdisjt⟩
      obtain ⟨m3, hcal, hrepl, hframe3, hlive3⟩ :=
        compare_and_link_spec hrept2 hrepacc hndlink
      -- inspect the shape of the tail encoding to expose the recursion
      cases h0 with
      | cons u2 x2 arr2 ts2 h2 =>
        refine ⟨m3, ?_, ⟨pvt, by rw [backAcc]; exact hrepl⟩, ?_, ?_⟩
        · simp [backward_pass, hrun2, hcal, backAcc]
        · intro y hy
          rw [addrsF] at hy
          have hyt : y ∉ addrsT t := fun h =>
            hy (List.mem_append_left _ h)
          have hyrest : y ∉ addrsF (u :: rest2) := fun h =>
            hy (List.mem_append_right _ h)
          have hyacc : y ∉ addrsT (backAcc u rest2) := by
            intro h
            apply hyrest
            rw [addrsF]
            exact (addrsT_backAcc u rest2).mem_iff.mp h
          rw [hframe3 y hyt hyacc, hframe2 y hyrest]
        · intro y
          rw [hlive3 y, hlive2 y]

/-!
## The specification of combine_siblings
-/

theorem length_le_addrsF : ∀ cs : List (RT α),
    cs.length ≤ (addrsF cs).length
  | [] => by simp [addrsF]
  | c :: rest => by
    rw [addrsF, List.length_cons, List.length_append]
    have h1 : 1 ≤ (addrsT c).length := by
      cases c with
      | node a v cs => rw [addrsT_def, List.length_cons]; omega
    have h2 := length_le_addrsF rest
    omega

theorem live_length {m : Mem α} {l : List Nat} (hnd : l.Nodup)
    (hlive : ∀ a ∈ l, (mget m a).isSome = true) : l.length ≤ m.length := by
  have hsub : l ⊆ List.range m.length := by
    intro a ha
    rw [List.mem_range]
    obtain ⟨n, hn⟩ := Option.isSome_iff_exists.mp (hlive a ha)
    exact mget_lt_length hn
  have hsp := List.subperm_of_subset hnd hsub
  have := hsp.length_le
  rwa [List.length_range] at this

/-- What `combine_siblings` does to the represented child list of a
removed root `r`: it returns the two-pass functional combination of the
children, laid out in memory; besides the children's slots it writes
only the old root's `next` field. -/
theorem combine_siblings_spec {m : Mem α} {r : Nat} {rn : PNode α}
    (c0 : RT α) (csr : List (RT α))
    (hsib : sibRep m r (c0 :: csr))
    (hr : mget m r = some rn)
    (hnd : (r :: addrsF (c0 :: csr)).Nodup)
    (hlive : ∀ a ∈ r :: addrsF (c0 :: csr), (mget m a).isSome = true) :
    ∃ m', combine_siblings m c0.addr =
        some (some (combTree c0 csr).addr, m') ∧
      rootRep m' (combTree c0 csr) ∧
      (∀ b, b ≠ r → b ∉ addrsF (c0 :: csr) → mget m' b = mget m b) ∧
      (∀ b, (mget m' b).isSome = (mget m b).isSome) := by
  rw [List.nodup_cons] at hnd
  obtain ⟨hrnot, hndF⟩ := hnd
  rw [sibRep] at hsib
  cases csr with
  | nil =>
    rw [headAddr] at hsib
    have hgc0 : mget m c0.addr =
        some (PNode.mk c0.val (headAddr c0.cs) (some r) none) :=
      treeRep_node hsib.1
    have hct : combTree c0 ([] : List (RT α)) = c0 := by
      simp only [combTree, pairPass, backAcc]
    rw [hct]
    refine ⟨m, ?_, ⟨some r, hsib.1⟩, fun _ _ _ => rfl, fun _ => rfl⟩
    simp [combine_siblings, hgc0]
  | cons c1 csr2 =>
    rw [headAddr] at hsib
    have hgc0 : mget m c0.addr =
        some (PNode.mk c0.val (headAddr c0.cs) (some r) (some c1.addr)) :=
      treeRep_node hsib.1
    have hsib' : sibRep m r (c0 :: c1 :: csr2) := by
      rw [sibRep, headAddr]
      exact hsib
    have hfuel : (c0 :: c1 :: csr2).length < m.length + 1 := by
      have h1 : (r :: addrsF (c0 :: c1 :: csr2)).length ≤ m.length :=
        live_length (by rw [List.nodup_cons]; exact ⟨hrnot, hndF⟩) hlive
      have h2 := length_le_addrsF (c0 :: c1 :: csr2)
      rw [List.length_cons] at h1
      omega
    obtain ⟨m2, hcol, hsev, hgr2, hframeC, hliveC⟩ :=
      collect_spec (c1 :: csr2) c0 r rn m (m.length + 1) hsib' hr hndF
        hrnot hfuel
    have hreps2 : rootsRep m2 (c0 :: c1 :: csr2) := sevRep_rootsRep hsev
    have hndF2 : (addrsF (c0 :: c1 :: csr2)).Nodup := hndF
    obtain ⟨arr', m3, hfwd, hback, hreps3, hframeF, hliveF⟩ :=
      forward_pass_spec (padIn_of_map (c0 :: c1 :: csr2)) hreps2 hndF2
    obtain ⟨r0, rs0, hpp⟩ := pairPass_cons c0 (c1 :: csr2)
    have hndP : (addrsF (r0 :: rs0)).Nodup := by
      rw [← hpp]
      exact (addrsF_pairPass _).nodup_iff.mpr hndF2
    rw [hpp] at hback hreps3
    obtain ⟨m4, hbwd, hrootrep, hframeB, hliveB⟩ :=
      backward_pass_spec rs0 hback hreps3 hndP
    have hct : combTree c0 (c1 :: csr2) = backAcc r0 rs0 := by
      rw [combTree, hpp]
    rw [hct]
    have hmemP : ∀ b, b ∈ addrsF (r0 :: rs0) → b ∈ addrsF (c0 :: c1 :: csr2) := by
      intro b hb
      rw [← hpp] at hb
      exact (addrsF_pairPass _).mem_iff.mp hb
    refine ⟨m4, ?_, hrootrep, ?_, ?_⟩
    · have hcond : ¬(some c1.addr = none) := by simp
      simp only [combine_siblings, Option.bind_eq_bind, Option.some_bind,
        hgc0, if_neg hcond, hcol, hfwd, hbwd]
    · intro b hbr hbF
      have hbP : b ∉ addrsF (r0 :: rs0) := fun h => hbF (hmemP b h)
      rw [hframeB b hbP, hframeF b hbF, hframeC b hbr hbF]
    · intro b
      rw [hliveB b, hliveF b, hliveC b]

/-!
## The specifications of push and pop
-/

theorem push_empty_spec {h : Heap α} (hroot : h.root = none)
    (hdead : ∀ a, mget h.mem a = none) (v : α) :
    h.push v = some (⟨some h.mem.length,
        h.mem ++ [some (PNode.mk v none none none)]⟩, h.mem.length) ∧
      InvT ⟨some h.mem.length, h.mem ++ [some (PNode.mk v none none none)]⟩
        (RT.node h.mem.length v []) := by
  constructor
  · rw [Heap.push, hroot]
  · refine ⟨rfl, ⟨none, ?_⟩, ?_, ?_⟩
    · rw [treeRep, sibRep, headAddr]
      exact ⟨mget_append_self _ _, trivial⟩
    · intro a
      rw [addrsT_def, addrsF]
      rcases eq_or_ne a h.mem.length with rfl | hne
      · rw [mget_append_self]
        simp
      · rw [mget_append_ne _ _ hne, hdead a]
        simp [hne]
    · rw [addrsT_def, addrsF]
      simp

theorem push_spec {h : Heap α} {t : RT α} (hinv : InvT h t) (v : α) :
    ∃ h', h.push v =
        some (h', h.mem.length) ∧
      InvT h' (linkTree t (RT.node h.mem.length v [])) := by
  obtain ⟨hroot, ⟨pv, hrep⟩, hlive, hnd⟩ := hinv
  have hfresh : h.mem.length ∉ addrsT t := by
    intro hmem
    have := (hlive h.mem.length).mpr hmem
    obtain ⟨n, hn⟩ := Option.isSome_iff_exists.mp this
    exact absurd (mget_lt_length hn) (lt_irrefl _)
  have hlt : ∀ a ∈ addrsT t, a < h.mem.length := by
    intro a ha
    obtain ⟨n, hn⟩ := Option.isSome_iff_exists.mp ((hlive a).mpr ha)
    exact mget_lt_length hn
  set M1 : Mem α := h.mem ++ [some (PNode.mk v none none none)] with hM1
  have hrep1 : treeRep M1 t pv none := by
    refine treeRep_congr t _ _ ?_ hrep
    intro a ha
    rw [hM1, mget_append_ne _ _ (Nat.ne_of_lt (hlt a ha))]
  have hrepleaf : treeRep M1 (RT.node h.mem.length v []) none none := by
    rw [treeRep, sibRep, headAddr]
    exact ⟨by rw [hM1]; exact mget_append_self _ _, trivial⟩
  have hndlink : (addrsT t ++ addrsT (RT.node h.mem.length v [])).Nodup := by
    rw [addrsT_def, addrsF, List.nodup_append]
    refine ⟨hnd, by simp, ?_⟩
    intro x hx hy
    simp at hy
    exact hfresh (hy ▸ hx)
  obtain ⟨m2, hcal, hrepl, hframe, hliveq⟩ :=
    compare_and_link_spec hrep1 hrepleaf hndlink
  rw [RT.addr_node] at hcal
  refine ⟨⟨some (linkTree t (RT.node h.mem.length v [])).addr, m2⟩, ?_,
    rfl, ⟨pv, hrepl⟩, ?_, ?_⟩
  · rw [Heap.push, hroot]
    simp only [← hM1, hcal]
    rfl
  · intro a
    rw [hliveq a, (addrsT_linkTree _ _).mem_iff]
    rcases eq_or_ne a h.mem.length with rfl | hne
    · rw [hM1, mget_append_self]
      simp [addrsT_def, addrsF]
    · rw [hM1, mget_append_ne _ _ hne, hlive a]
      simp [addrsT_def, addrsF, hne]
  · refine ((addrsT_linkTree _ _).nodup_iff).mpr ?_
    rw [addrsT_def, addrsF, List.nodup_append]
    refine ⟨hnd, by simp, ?_⟩
    intro x hx hy
    simp at hy
    exact hfresh (hy ▸ hx)

/-- `pop` on an empty heap: the empty result and the heap unchanged. -/
theorem pop_empty_spec {h : Heap α} (hroot : h.root = none) :
    h.pop = some (none, h) := by
  rw [Heap.pop, hroot]

theorem pop_spec {h : Heap α} {t : RT α} (hinv : InvT h t) :
    ∃ h', h.pop = some (some t.val, h') ∧
      ((h'.root = none ∧ (∀ a, mget h'.mem a = none) ∧ t.cs = []) ∨
       (∃ c0 csr, t.cs = c0 :: csr ∧ InvT h' (combTree c0 csr))) := by
  obtain ⟨r, v, cs⟩ := t
  obtain ⟨hroot, ⟨pv, hrep⟩, hlive, hnd⟩ := hinv
  rw [RT.addr_node] at hroot
  rw [treeRep] at hrep
  obtain ⟨hgr, hsib⟩ := hrep
  rw [addrsT_def] at hlive hnd
  cases cs with
  | nil =>
    rw [headAddr] at hgr
    refine ⟨⟨none, mdel h.mem r⟩, ?_, Or.inl ⟨rfl, ?_, rfl⟩⟩
    · simp only [Heap.pop, hroot, hgr, Option.bind_eq_bind, Option.some_bind,
        RT.val_node]
    · intro a
      rcases eq_or_ne a r with rfl | hne
      · exact mget_mdel_self _ _
      · rw [mget_mdel_ne _ hne]
        have hnotmem : a ∉ (r :: addrsF ([] : List (RT α))) := by
          rw [addrsF]
          simp [hne]
        have h2 : ¬((mget h.mem a).isSome = true) := fun hs =>
          hnotmem ((hlive a).mp hs)
        exact Option.not_isSome_iff_eq_none.mp h2
  | cons c0 csr =>
    rw [headAddr] at hgr
    have hliveL : ∀ a ∈ r :: addrsF (c0 :: csr), (mget h.mem a).isSome = true :=
      fun a ha => (hlive a).mpr ha
    obtain ⟨m4, hcomb, hroot4, hframe4, hlive4⟩ :=
      combine_siblings_spec c0 csr hsib hgr hnd hliveL
    have hrnot : r ∉ addrsF (c0 :: csr) := by
      rw [List.nodup_cons] at hnd
      exact hnd.1
    have hmemC : ∀ b, b ∈ addrsT (combTree c0 csr) ↔ b ∈ addrsF (c0 :: csr) :=
      fun b => (addrsT_combTree c0 csr).mem_iff
    refine ⟨⟨some (combTree c0 csr).addr, mdel m4 r⟩, ?_,
      Or.inr ⟨c0, csr, rfl, rfl, ?_, ?_, ?_⟩⟩
    · simp only [Heap.pop, hroot, hgr, Option.bind_eq_bind, Option.some_bind,
        hcomb, RT.val_node]
    · obtain ⟨pvc, hrepc⟩ := hroot4
      refine ⟨pvc, treeRep_congr _ _ _ ?_ hrepc⟩
      intro b hb
      have hbr : b ≠ r := by
        intro hbe
        exact hrnot (hbe ▸ (hmemC b).mp hb)
      rw [mget_mdel_ne _ hbr]
    · intro a
      rcases eq_or_ne a r with rfl | hne
      · rw [mget_mdel_self]
        simp only [Option.isSome_none, Bool.false_eq_true, false_iff]
        exact fun hmem => hrnot ((hmemC _).mp hmem)
      · rw [mget_mdel_ne _ hne, hlive4 a, hlive a, hmemC a]
        simp [hne]
    · refine ((addrsT_combTree c0 csr).nodup_iff).mpr ?_
      rw [List.nodup_cons] at hnd
      exact hnd.2

/-!
## Pure lemmas about cutting a subtree and updating a value
-/

theorem updVal_addr (a : Nat) (f : α → α) (t : RT α) :
    (updVal a f t).addr = t.addr := by
  cases t with
  | node b v cs => rw [updVal, RT.addr_node, RT.addr_node]

theorem headAddr_updValF (a : Nat) (f : α → α) : ∀ cs : List (RT α),
    headAddr (updValF a f cs) = headAddr cs
  | [] => by rw [updValF]
  | c :: rest => by
    rw [updValF, headAddr, headAddr, updVal_addr]

mutual
theorem addrsT_updVal (a : Nat) (f : α → α) : ∀ t : RT α,
    addrsT (updVal a f t) = addrsT t
  | .node b v cs => by
    rw [updVal, addrsT_def, addrsT_def, addrsF_updValF a f cs]
theorem addrsF_updValF (a : Nat) (f : α → α) : ∀ cs : List (RT α),
    addrsF (updValF a f cs) = addrsF cs
  | [] => by rw [updValF]
  | c :: rest => by
    rw [updValF, addrsF, addrsF, addrsT_updVal a f c, addrsF_updValF a f rest]
end

theorem updVal_not_mem (f : α → α) : ∀ (t : RT α) (a : Nat),
    a ∉ addrsT t → updVal a f t = t := by
  have key : ∀ t : RT α, ∀ a, a ∉ addrsT t → updVal a f t = t := by
    intro t
    induction t using RT.ind with
    | _ b v cs ih =>
      intro a ha
      rw [addrsT_def] at ha
      have hba : ¬(b = a) := fun h => ha (by rw [h]; exact List.mem_cons_self ..)
      rw [updVal, if_neg hba]
      have hcs : updValF a f cs = cs := by
        clear hba
        induction cs with
        | nil => rw [updValF]
        | cons c rest ihl =>
          rw [updValF, ih c (List.mem_cons_self ..) a
            (fun h => ha (List.mem_cons_of_mem _ (by
              rw [addrsF]; exact List.mem_append_left _ h))), ihl]
          · intro d hd
            exact ih d (List.mem_cons_of_mem _ hd)
          · intro h
            apply ha
            rcases List.mem_cons.mp h with h1 | h2
            · rw [h1]; exact List.mem_cons_self ..
            · exact List.mem_cons_of_mem _ (by
                rw [addrsF]; exact List.mem_append_right _ h2)
      rw [hcs]
  exact key

mutual
theorem cutT_updVal (tok : Nat) (f : α → α) : ∀ t : RT α,
    cutT tok (updVal tok f t) =
      (cutT tok t).map fun p => (updVal tok f p.1, updVal tok f p.2)
  | .node b v cs => by
    rw [updVal, cutT, cutT, cutF_updValF tok f cs]
    cases hc : cutF tok cs with
    | none => rfl
    | some p =>
      simp only [Option.map_some']
      simp only [updVal]
theorem cutF_updValF (tok : Nat) (f : α → α) : ∀ cs : List (RT α),
    cutF tok (updValF tok f cs) =
      (cutF tok cs).map fun p => (updVal tok f p.1, updValF tok f p.2)
  | [] => by rw [updValF, cutF]; rfl
  | c :: rest => by
    rw [updValF, cutF, cutF, updVal_addr]
    by_cases hca : c.addr = tok
    · rw [if_pos hca, if_pos hca]
      simp only [Option.map_some']
    · rw [if_neg hca, if_neg hca, cutT_updVal tok f c]
      cases hc : cutT tok c with
      | none =>
        simp only [Option.map_none']
        rw [cutF_updValF tok f rest]
        cases hr : cutF tok rest with
        | none => rfl
        | some p =>
          simp only [Option.map_some']
          simp only [updValF]
      | some p =>
        obtain ⟨s0, c2⟩ := p
        simp only [Option.map_some']
        simp only [updValF]
end

mutual
theorem cutT_perm (tok : Nat) : ∀ (t : RT α) (pr : RT α × RT α),
    cutT tok t = some pr →
    pr.1.addr = tok ∧ pr.2.addr = t.addr ∧ pr.2.val = t.val ∧
      (addrsT t).Perm (addrsT pr.1 ++ addrsT pr.2) ∧
      (valuesT t).Perm (valuesT pr.1 ++ valuesT pr.2)
  | .node b v cs, pr, hcut => by
    rw [cutT] at hcut
    cases hc : cutF tok cs with
    | none => rw [hc] at hcut; cases hcut
    | some p =>
      rw [hc] at hcut
      simp only [Option.map_some'] at hcut
      cases hcut
      obtain ⟨ha, hperm, hvperm⟩ := cutF_perm tok cs p hc
      refine ⟨ha, by rw [RT.addr_node, RT.addr_node],
        by rw [RT.val_node, RT.val_node], ?_, ?_⟩
      · rw [addrsT_def]
        show (b :: addrsF cs).Perm (addrsT p.1 ++ addrsT (RT.node b v p.2))
        rw [addrsT_def]
        refine (hperm.cons b).trans ?_
        exact (List.perm_middle).symm
      · rw [valuesT_def]
        show (v :: valuesF cs).Perm (valuesT p.1 ++ valuesT (RT.node b v p.2))
        rw [valuesT_def]
        refine (hvperm.cons v).trans ?_
        exact (List.perm_middle).symm
theorem cutF_perm (tok : Nat) : ∀ (cs : List (RT α))
    (pr : RT α × List (RT α)),
    cutF tok cs = some pr →
    pr.1.addr = tok ∧ (addrsF cs).Perm (addrsT pr.1 ++ addrsF pr.2) ∧
      (valuesF cs).Perm (valuesT pr.1 ++ valuesF pr.2)
  | [], pr, hcut => by rw [cutF] at hcut; cases hcut
  | c :: rest, pr, hcut => by
    rw [cutF] at hcut
    by_cases hca : c.addr = tok
    · rw [if_pos hca] at hcut
      cases hcut
      exact ⟨hca, by rw [addrsF], by rw [valuesF]⟩
    · rw [if_neg hca] at hcut
      cases hc : cutT tok c with
      | some p =>
        obtain ⟨s0, c2⟩ := p
        rw [hc] at hcut
        cases hcut
        obtain ⟨ha, _, _, hperm, hvperm⟩ := cutT_perm tok c (s0, c2) hc
        refine ⟨ha, ?_, ?_⟩
        · show (addrsF (c :: rest)).Perm (addrsT s0 ++ addrsF (c2 :: rest))
          rw [addrsF, addrsF]
          have h2 := hperm.append (List.Perm.refl (addrsF rest))
          rw [List.append_assoc] at h2
          exact h2
        · show (valuesF (c :: rest)).Perm (valuesT s0 ++ valuesF (c2 :: rest))
          rw [valuesF, valuesF]
          have h2 := hvperm.append (List.Perm.refl (valuesF rest))
          rw [List.append_assoc] at h2
          exact h2
      | none =>
        rw [hc] at hcut
        cases hr : cutF tok rest with
        | none => rw [hr] at hcut; cases hcut
        | some p =>
          rw [hr] at hcut
          simp only [Option.map_some'] at hcut
          cases hcut
          obtain ⟨ha, hperm, hvperm⟩ := cutF_perm tok rest p hr
          refine ⟨ha, ?_, ?_⟩
          · show (addrsF (c :: rest)).Perm
              (addrsT p.1 ++ addrsF (c :: p.2))
            rw [addrsF, addrsF]
            refine (hperm.append_left (addrsT c)).trans ?_
            rw [← List.append_assoc, ← List.append_assoc]
            exact (List.perm_append_comm).append
              (List.Perm.refl (addrsF p.2))
          · show (valuesF (c :: rest)).Perm
              (valuesT p.1 ++ valuesF (c :: p.2))
            rw [valuesF, valuesF]
            refine (hvperm.append_left (valuesT c)).trans ?_
            rw [← List.append_assoc, ← List.append_assoc]
            exact (List.perm_append_comm).append
              (List.Perm.refl (valuesF p.2))
end

theorem heapOrdF_mono {v w : α} (h : w ≤ v) : ∀ cs : List (RT α),
    heapOrdF v cs → heapOrdF w cs
  | [] => by intro _; rw [heapOrdF]; trivial
  | c :: rest => by
    intro hord
    rw [heapOrdF] at hord ⊢
    exact ⟨le_trans h hord.1, hord.2.1, heapOrdF_mono h rest hord.2.2⟩

mutual
theorem cutT_not_mem (tok : Nat) : ∀ t : RT α,
    tok ∉ addrsT t → cutT tok t = none
  | .node b v cs => by
    intro h
    rw [addrsT_def] at h
    rw [cutT, cutF_not_mem tok cs (fun hm => h (List.mem_cons_of_mem _ hm))]
    rfl
theorem cutF_not_mem (tok : Nat) : ∀ cs : List (RT α),
    tok ∉ addrsF cs → cutF tok cs = none
  | [] => by intro _; rw [cutF]
  | c :: rest => by
    intro h
    rw [addrsF] at h
    have hc : tok ∉ addrsT c := fun hm => h (List.mem_append_left _ hm)
    have hr : tok ∉ addrsF rest := fun hm => h (List.mem_append_right _ hm)
    have hca : ¬(c.addr = tok) := fun he => hc (he ▸ addr_mem_addrsT c)
    rw [cutF, if_neg hca, cutT_not_mem tok c hc, cutF_not_mem tok rest hr]
    rfl
end

/-!
## Updating a value in place
-/

theorem updVal_sibRep {m m' : Mem α} {tok : Nat} {f : α → α}
    (hw : ∀ a, mget m' a = if a = tok
      then (mget m a).map (fun n => { n with value := f n.value })
      else mget m a)
    (cs : List (RT α))
    (ih : ∀ c ∈ cs, ∀ pv nx, treeRep m c pv nx →
      treeRep m' (updVal tok f c) pv nx) :
    ∀ p, sibRep m p cs → sibRep m' p (updValF tok f cs) := by
  induction cs with
  | nil => intro p _; rw [updValF, sibRep]; trivial
  | cons c rest ihl =>
    intro p hrep
    rw [sibRep] at hrep
    rw [updValF, sibRep, headAddr_updValF, updVal_addr]
    exact ⟨ih c (List.mem_cons_self ..) _ _ hrep.1,
      ihl (fun d hd => ih d (List.mem_cons_of_mem _ hd)) c.addr hrep.2⟩

theorem updVal_treeRep {m m' : Mem α} {tok : Nat} {f : α → α}
    (hw : ∀ a, mget m' a = if a = tok
      then (mget m a).map (fun n => { n with value := f n.value })
      else mget m a) :
    ∀ (t : RT α) (pv nx : Option Nat), treeRep m t pv nx →
      treeRep m' (updVal tok f t) pv nx := by
  intro t
  induction t using RT.ind with
  | _ a v cs ih =>
    intro pv nx hrep
    rw [treeRep] at hrep
    rw [updVal, treeRep, headAddr_updValF]
    constructor
    · rw [hw a, hrep.1]
      by_cases ha : a = tok
      · rw [if_pos ha, if_pos ha]
        rfl
      · rw [if_neg ha, if_neg ha]
    · exact updVal_sibRep hw cs ih a hrep.2

/-!
## The specification of the unlinking fragment of decrease_key
-/

/-- What the unlink fragment does when node `tok` lies somewhere in a
sibling chain hanging from `p`: the functional cut removes the `tok`
subtree, the chain is relinked around it, `p`'s `first_child` (when `p`
is the parent of the chain) or `next` (when `p` is the left sibling of
its head) is re-pointed, and the severed subtree is laid out detached
with a null `next`. -/
theorem unlink_spec : ∀ (cs : List (RT α)) (tok : Nat) (m : Mem α)
    (p : Nat) (pn : PNode α) (parent : Bool),
    sibRep m p cs → mget m p = some pn →
    (p :: addrsF cs).Nodup →
    (if parent then pn.first_child = headAddr cs
     else pn.next = headAddr cs ∧ pn.first_child ≠ headAddr cs) →
    tok ∈ addrsF cs →
    ∃ (pr : RT α × List (RT α)) (m' : Mem α), cutF tok cs = some pr ∧
      unlink_node m tok = some m' ∧
      mget m' p = some (if parent then { pn with first_child := headAddr pr.2 }
                        else { pn with next := headAddr pr.2 }) ∧
      sibRep m' p pr.2 ∧ rootRep m' pr.1 ∧
      (∀ b, b ≠ p → b ∉ addrsF cs → mget m' b = mget m b) ∧
      (∀ b, (mget m' b).isSome = (mget m b).isSome)
  | [], tok, m, p, pn, parent, _, _, _, _, htok => by
    rw [addrsF] at htok
    cases htok
  | RT.node ca cv ccs :: rest, tok, m, p, pn, parent, hsib, hp, hnd, hmode,
      htok => by
    rw [sibRep] at hsib
    rw [List.nodup_cons] at hnd
    obtain ⟨hpnot, hndF⟩ := hnd
    rw [addrsF, List.nodup_append] at hndF
    obtain ⟨hndc, hndrest, hdisj⟩ := hndF
    have hpc : p ≠ ca := by
      intro h
      apply hpnot
      rw [addrsF]
      exact List.mem_append_left _ (h ▸ addr_mem_addrsT (RT.node ca cv ccs))
    have hprest : p ∉ addrsF rest := by
      intro h
      apply hpnot
      rw [addrsF]
      exact List.mem_append_right _ h
    have hpccs : p ∉ addrsF ccs := by
      intro h
      apply hpnot
      rw [addrsF]
      refine List.mem_append_left _ ?_
      rw [addrsT_def]
      exact List.mem_cons_of_mem _ h
    have hcnotrest : ca ∉ addrsF rest := fun h =>
      hdisj (addr_mem_addrsT (RT.node ca cv ccs)) h
    have hccsdisj : ∀ b, b ∈ addrsF ccs → b ∉ addrsF rest := fun b hb =>
      hdisj (by rw [addrsT_def]; exact List.mem_cons_of_mem _ hb)
    have hcanotccs : ca ∉ addrsF ccs := by
      rw [addrsT_def, List.nodup_cons] at hndc
      exact hndc.1
    have hgc : mget m ca =
        some (PNode.mk cv (headAddr ccs) (some p) (headAddr rest)) := by
      have := treeRep_node hsib.1
      simpa [RT.addr_node, RT.val_node, RT.cs_node] using this
    have hccsrep : sibRep m ca ccs := by
      have := hsib.1
      rw [treeRep] at this
      exact this.2
    have hsibrest : sibRep m ca rest := by
      have := hsib.2
      rwa [RT.addr_node] at this
    have hheadcons : headAddr (RT.node ca cv ccs :: rest) = some ca := by
      rw [headAddr, RT.addr_node]
    by_cases hhead : ca = tok
    · -- case A: the head of the chain is the node to unlink
      subst hhead
      have hmode2 : (parent = true ∧ pn.first_child = some ca) ∨
          (parent = false ∧ pn.next = some ca ∧ pn.first_child ≠ some ca) := by
        cases parent with
        | true =>
          rw [if_pos rfl] at hmode
          rw [hheadcons] at hmode
          exact Or.inl ⟨rfl, hmode⟩
        | false =>
          rw [if_neg (by simp)] at hmode
          rw [hheadcons] at hmode
          exact Or.inr ⟨rfl, hmode⟩
      cases rest with
      | nil =>
        rw [headAddr] at hgc
        rcases hmode2 with ⟨hpar, hpfc⟩ | ⟨hpar, hpnx, hpfc⟩ <;> subst hpar
        · -- parent mode, no right sibling
          set M2 : Mem α := mset m p { pn with first_child := none } with hM2
          have g2p : mget M2 p = some { pn with first_child := none } := by
            rw [hM2, mget_mset_self hp]
          have g2c : mget M2 ca =
              some (PNode.mk cv (headAddr ccs) (some p) none) := by
            rw [hM2, mget_mset_ne m (Ne.symm hpc), hgc]
          set M3 : Mem α := mset M2 ca
            (PNode.mk cv (headAddr ccs) (some p) none) with hM3
          refine ⟨(RT.node ca cv ccs, []), M3, ?_, ?_, ?_, ?_, ?_, ?_, ?_⟩
          · rw [cutF, if_pos (RT.addr_node ca cv ccs)]
          · rw [unlink_node]
            simp only [Option.bind_eq_bind, Option.some_bind, hgc, hp,
              if_pos hpfc, updNode_eq hp, ← hM2, updNode_eq g2c, ← hM3]
          · show mget M3 p = some { pn with first_child := headAddr [] }
            rw [headAddr, hM3, mget_mset_ne M2 hpc, g2p]
          · rw [sibRep]; trivial
          · refine ⟨some p, ?_⟩
            rw [treeRep]
            refine ⟨by rw [hM3, mget_mset_self g2c], ?_⟩
            refine sibRep_frame _ _ ?_ hccsrep
            intro b hb
            have hbca : b ≠ ca := fun h => hcanotccs (h ▸ hb)
            have hbp : b ≠ p := fun h => hpccs (h ▸ hb)
            rw [hM3, mget_mset_ne M2 hbca, hM2, mget_mset_ne m hbp]
          · intro b hbp hbf
            have hbca : b ≠ ca := by
              intro h
              apply hbf
              rw [addrsF]
              exact List.mem_append_left _
                (h ▸ addr_mem_addrsT (RT.node ca cv ccs))
            rw [hM3, mget_mset_ne M2 hbca, hM2, mget_mset_ne m hbp]
          · intro b
            rw [hM3, isSome_mget_mset g2c, hM2, isSome_mget_mset hp]
        · -- left-sibling mode, no right sibling
          set M2 : Mem α := mset m p { pn with next := none } with hM2
          have g2p : mget M2 p = some { pn with next := none } := by
            rw [hM2, mget_mset_self hp]
          have g2c : mget M2 ca =
              some (PNode.mk cv (headAddr ccs) (some p) none) := by
            rw [hM2, mget_mset_ne m (Ne.symm hpc), hgc]
          set M3 : Mem α := mset M2 ca
            (PNode.mk cv (headAddr ccs) (some p) none) with hM3
          refine ⟨(RT.node ca cv ccs, []), M3, ?_, ?_, ?_, ?_, ?_, ?_, ?_⟩
          · rw [cutF, if_pos (RT.addr_node ca cv ccs)]
          · rw [unlink_node]
            simp only [Option.bind_eq_bind, Option.some_bind, hgc, hp,
              if_neg hpfc, updNode_eq hp, ← hM2, updNode_eq g2c, ← hM3]
          · show mget M3 p = some { pn with next := headAddr [] }
            rw [headAddr, hM3, mget_mset_ne M2 hpc, g2p]
          · rw [sibRep]; trivial
          · refine ⟨some p, ?_⟩
            rw [treeRep]
            refine ⟨by rw [hM3, mget_mset_self g2c], ?_⟩
            refine sibRep_frame _ _ ?_ hccsrep
            intro b hb
            have hbca : b ≠ ca := fun h => hcanotccs (h ▸ hb)
            have hbp : b ≠ p := fun h => hpccs (h ▸ hb)
            rw [hM3, mget_mset_ne M2 hbca, hM2, mget_mset_ne m hbp]
          · intro b hbp hbf
            have hbca : b ≠ ca := by
              intro h
              apply hbf
              rw [addrsF]
              exact List.mem_append_left _
                (h ▸ addr_mem_addrsT (RT.node ca cv ccs))
            rw [hM3, mget_mset_ne M2 hbca, hM2, mget_mset_ne m hbp]
          · intro b
            rw [hM3, isSome_mget_mset g2c, hM2, isSome_mget_mset hp]
      | cons c2 r2 =>
        rw [headAddr] at hgc
        rw [sibRep] at hsibrest
        have hg2 : mget m c2.addr =
            some (PNode.mk c2.val (headAddr c2.cs) (some ca) (headAddr r2)) :=
          treeRep_node hsibrest.1
        have hc2mem : c2.addr ∈ addrsF (c2 :: r2) := by
          rw [addrsF]
          exact List.mem_append_left _ (addr_mem_addrsT c2)
        have hc2ca : c2.addr ≠ ca := fun h => hcnotrest (h ▸ hc2mem)
        have hc2p : c2.addr ≠ p := fun h => hprest (h ▸ hc2mem)
        have hc2ccs : c2.addr ∉ addrsF c2.cs := by
          rw [addrsF, List.nodup_append] at hndrest
          exact addr_not_mem_cs hndrest.1
        have hc2r2 : c2.addr ∉ addrsF r2 := by
          rw [addrsF, List.nodup_append] at hndrest
          exact fun h => hndrest.2.2 (addr_mem_addrsT c2) h
        set M1 : Mem α := mset m c2.addr
          (PNode.mk c2.val (headAddr c2.cs) (some p) (headAddr r2)) with hM1
        have g1c : mget M1 ca =
            some (PNode.mk cv (headAddr ccs) (some p) (some c2.addr)) := by
          rw [hM1, mget_mset_ne m (Ne.symm hc2ca), hgc]
        have g1p : mget M1 p = some pn := by
          rw [hM1, mget_mset_ne m (Ne.symm hc2p), hp]
        have hsibM1 : sibRep M1 p (c2 :: r2) := by
          rw [sibRep]
          constructor
          · exact treeRep_retarget2 hsibrest.1 hc2ccs (some p) (headAddr r2)
          · refine sibRep_frame _ _ ?_ hsibrest.2
            intro b hb
            have hbc2 : b ≠ c2.addr := fun h => hc2r2 (h ▸ hb)
            rw [hM1, mget_mset_ne m hbc2]
        rcases hmode2 with ⟨hpar, hpfc⟩ | ⟨hpar, hpnx, hpfc⟩ <;> subst hpar
        · -- parent mode, with a right sibling
          set M2 : Mem α := mset M1 p { pn with first_child := some c2.addr }
            with hM2
          have g2p : mget M2 p =
              some { pn with first_child := some c2.addr } := by
            rw [hM2, mget_mset_self g1p]
          have g2c : mget M2 ca =
              some (PNode.mk cv (headAddr ccs) (some p) (some c2.addr)) := by
            rw [hM2, mget_mset_ne M1 (Ne.symm hpc), g1c]
          set M3 : Mem α := mset M2 ca
            (PNode.mk cv (headAddr ccs) (some p) none) with hM3
          refine ⟨(RT.node ca cv ccs, c2 :: r2), M3, ?_, ?_, ?_, ?_, ?_,
            ?_, ?_⟩
          · rw [cutF, if_pos (RT.addr_node ca cv ccs)]
          · rw [unlink_node]
            simp only [Option.bind_eq_bind, Option.some_bind, hgc,
              updNode_eq hg2, ← hM1, g1c, g1p, if_pos hpfc,
              updNode_eq g1p, ← hM2, updNode_eq g2c, ← hM3]
          · show mget M3 p =
              some { pn with first_child := headAddr (c2 :: r2) }
            rw [headAddr, hM3, mget_mset_ne M2 hpc, g2p]
          · have hsibM2 : sibRep M2 p (c2 :: r2) := by
              refine sibRep_frame _ _ ?_ hsibM1
              intro b hb
              have hbp : b ≠ p := fun h => hprest (h ▸ hb)
              rw [hM2, mget_mset_ne M1 hbp]
            refine sibRep_frame _ _ ?_ hsibM2
            intro b hb
            have hbca : b ≠ ca := fun h => hcnotrest (h ▸ hb)
            rw [hM3, mget_mset_ne M2 hbca]
          · refine ⟨some p, ?_⟩
            rw [treeRep]
            refine ⟨by rw [hM3, mget_mset_self g2c], ?_⟩
            refine sibRep_frame _ _ ?_ hccsrep
            intro b hb
            have hbca : b ≠ ca := fun h => hcanotccs (h ▸ hb)
            have hbp : b ≠ p := fun h => hpccs (h ▸ hb)
            have hbc2 : b ≠ c2.addr := by
              intro h
              exact hccsdisj b hb (h ▸ hc2mem)
            rw [hM3, mget_mset_ne M2 hbca, hM2, mget_mset_ne M1 hbp, hM1,
              mget_mset_ne m hbc2]
          · intro b hbp hbf
            have hbca : b ≠ ca := by
              intro h
              apply hbf
              rw [addrsF]
              exact List.mem_append_left _
                (h ▸ addr_mem_addrsT (RT.node ca cv ccs))
            have hbc2 : b ≠ c2.addr := by
              intro h
              apply hbf
              rw [addrsF]
              exact List.mem_append_right _ (h ▸ hc2mem)
            rw [hM3, mget_mset_ne M2 hbca, hM2, mget_mset_ne M1 hbp, hM1,
              mget_mset_ne m hbc2]
          · intro b
            rw [hM3, isSome_mget_mset g2c, hM2, isSome_mget_mset g1p, hM1,
              isSome_mget_mset hg2]
        · -- left-sibling mode, with a right sibling
          set M2 : Mem α := mset M1 p { pn with next := some c2.addr }
            with hM2
          have g2p : mget M2 p = some { pn with next := some c2.addr } := by
            rw [hM2, mget_mset_self g1p]
          have g2c : mget M2 ca =
              some (PNode.mk cv (headAddr ccs) (some p) (some c2.addr)) := by
            rw [hM2, mget_mset_ne M1 (Ne.symm hpc), g1c]
          set M3 : Mem α := mset M2 ca
            (PNode.mk cv (headAddr ccs) (some p) none) with hM3
          refine ⟨(RT.node ca cv ccs, c2 :: r2), M3, ?_, ?_, ?_, ?_, ?_,
            ?_, ?_⟩
          · rw [cutF, if_pos (RT.addr_node ca cv ccs)]
          · rw [unlink_node]
            simp only [Option.bind_eq_bind, Option.some_bind, hgc,
              updNode_eq hg2, ← hM1, g1c, g1p, if_neg hpfc,
              updNode_eq g1p, ← hM2, updNode_eq g2c, ← hM3]
          · show mget M3 p = some { pn with next := headAddr (c2 :: r2) }
            rw [headAddr, hM3, mget_mset_ne M2 hpc, g2p]
          · have hsibM2 : sibRep M2 p (c2 :: r2) := by
              refine sibRep_frame _ _ ?_ hsibM1
              intro b hb
              have hbp : b ≠ p := fun h => hprest (h ▸ hb)
              rw [hM2, mget_mset_ne M1 hbp]
            refine sibRep_frame _ _ ?_ hsibM2
            intro b hb
            have hbca : b ≠ ca := fun h => hcnotrest (h ▸ hb)
            rw [hM3, mget_mset_ne M2 hbca]
          · refine ⟨some p, ?_⟩
            rw [treeRep]
            refine ⟨by rw [hM3, mget_mset_self g2c], ?_⟩
            refine sibRep_frame _ _ ?_ hccsrep
            intro b hb
            have hbca : b ≠ ca := fun h => hcanotccs (h ▸ hb)
            have hbp : b ≠ p := fun h => hpccs (h ▸ hb)
            have hbc2 : b ≠ c2.addr := by
              intro h
              exact hccsdisj b hb (h ▸ hc2mem)
            rw [hM3, mget_mset_ne M2 hbca, hM2, mget_mset_ne M1 hbp, hM1,
              mget_mset_ne m hbc2]
          · intro b hbp hbf
            have hbca : b ≠ ca := by
              intro h
              apply hbf
              rw [addrsF]
              exact List.mem_append_left _
                (h ▸ addr_mem_addrsT (RT.node ca cv ccs))
            have hbc2 : b ≠ c2.addr := by
              intro h
              apply hbf
              rw [addrsF]
              exact List.mem_append_right _ (h ▸ hc2mem)
            rw [hM3, mget_mset_ne M2 hbca, hM2, mget_mset_ne M1 hbp, hM1,
              mget_mset_ne m hbc2]
          · intro b
            rw [hM3, isSome_mget_mset g2c, hM2, isSome_mget_mset g1p, hM1,
              isSome_mget_mset hg2]
    · -- the node is deeper: inside the head subtree or inside the rest
      rw [addrsF] at htok
      rcases List.mem_append.mp htok with htokc | htokrest
      · -- case B: inside the head subtree
        have htokccs : tok ∈ addrsF ccs := by
          rw [addrsT_def] at htokc
          cases htokc with
          | head => exact absurd rfl hhead
          | tail _ h => exact h
        have hndCA : (ca :: addrsF ccs).Nodup := by
          rwa [addrsT_def] at hndc
        obtain ⟨pr0, m', hcut0, hunlink, hgp0, hsib0, hroot0, hframe0,
          hlive0⟩ :=
          unlink_spec ccs tok m ca
            (PNode.mk cv (headAddr ccs) (some p) (headAddr rest)) true
            hccsrep hgc hndCA (by simp) htokccs
        rw [if_pos rfl] at hgp0
        refine ⟨(pr0.1, RT.node ca cv pr0.2 :: rest), m', ?_, hunlink, ?_,
          ?_, hroot0, ?_, hlive0⟩
        · rw [cutF, if_neg (by rw [RT.addr_node]; exact hhead), cutT, hcut0]
          rfl
        · rw [hframe0 p hpc hpccs, hp]
          have hhead2 : headAddr (RT.node ca cv pr0.2 :: rest) = some ca := by
            rw [headAddr, RT.addr_node]
          rw [hhead2]
          cases parent with
          | true =>
            rw [if_pos rfl] at hmode ⊢
            rw [hheadcons] at hmode
            rw [← hmode]
          | false =>
            rw [if_neg (by simp)] at hmode ⊢
            rw [hheadcons] at hmode
            rw [← hmode.1]
        · rw [sibRep]
          constructor
          · rw [treeRep]
            constructor
            · rw [hgp0]
            · exact hsib0
          · rw [RT.addr_node]
            refine sibRep_frame _ _ ?_ hsibrest
            intro b hb
            have hbca : b ≠ ca := fun h => hcnotrest (h ▸ hb)
            have hbccs : b ∉ addrsF ccs := fun h => hccsdisj b h hb
            exact hframe0 b hbca hbccs
        · intro b hbp hbf
          have hbca : b ≠ ca := by
            intro h
            apply hbf
            rw [addrsF]
            exact List.mem_append_left _
              (h ▸ addr_mem_addrsT (RT.node ca cv ccs))
          have hbccs : b ∉ addrsF ccs := by
            intro h
            apply hbf
            rw [addrsF]
            refine List.mem_append_left _ ?_
            rw [addrsT_def]
            exact List.mem_cons_of_mem _ h
          exact hframe0 b hbca hbccs
      · -- case C: inside the rest of the chain
        have htoknotc : tok ∉ addrsT (RT.node ca cv ccs) := by
          intro h
          rw [addrsT_def] at h
          cases h with
          | head => exact hhead rfl
          | tail _ h2 =>
            rw [addrsT_def, List.nodup_cons] at hndc
            exact hdisj (by
              rw [addrsT_def]
              exact List.mem_cons_of_mem _ h2) htokrest
        have hndR : (ca :: addrsF rest).Nodup := by
          rw [List.nodup_cons]
          exact ⟨hcnotrest, hndrest⟩
        have hmodeC : (if (false : Bool) then
            (PNode.mk cv (headAddr ccs) (some p) (headAddr rest)).first_child
              = headAddr rest
          else
            (PNode.mk cv (headAddr ccs) (some p) (headAddr rest)).next =
              headAddr rest ∧
            (PNode.mk cv (headAddr ccs) (some p)
              (headAddr rest)).first_child ≠ headAddr rest) := by
          rw [if_neg (by simp)]
          refine ⟨rfl, ?_⟩
          show headAddr ccs ≠ headAddr rest
          cases hrest : rest with
          | nil =>
            rw [hrest] at htokrest
            rw [addrsF] at htokrest
            cases htokrest
          | cons c2 r2 =>
            rw [headAddr]
            cases hccs : ccs with
            | nil => rw [headAddr]; simp
            | cons d dr =>
              rw [headAddr]
              intro he
              have hd : d.addr ∈ addrsF ccs := by
                rw [hccs, addrsF]
                exact List.mem_append_left _ (addr_mem_addrsT d)
              have hc2 : c2.addr ∈ addrsF rest := by
                rw [hrest, addrsF]
                exact List.mem_append_left _ (addr_mem_addrsT c2)
              have := hccsdisj d.addr hd
              rw [Option.some_inj] at he
              exact this (he ▸ hc2)
        obtain ⟨pr0, m', hcut0, hunlink, hgp0, hsib0, hroot0, hframe0,
          hlive0⟩ :=
          unlink_spec rest tok m ca
            (PNode.mk cv (headAddr ccs) (some p) (headAddr rest)) false
            hsibrest hgc hndR hmodeC htokrest
        rw [if_neg (by simp)] at hgp0
        refine ⟨(pr0.1, RT.node ca cv ccs :: pr0.2), m', ?_, hunlink, ?_,
          ?_, hroot0, ?_, hlive0⟩
        · rw [cutF, if_neg (by rw [RT.addr_node]; exact hhead),
            cutT_not_mem tok _ htoknotc, hcut0]
          rfl
        · rw [hframe0 p hpc hprest, hp]
          rw [headAddr, RT.addr_node]
          cases parent with
          | true =>
            rw [if_pos rfl] at hmode ⊢
            rw [hheadcons] at hmode
            rw [← hmode]
          | false =>
            rw [if_neg (by simp)] at hmode ⊢
            rw [hheadcons] at hmode
            rw [← hmode.1]
        · rw [sibRep]
          constructor
          · rw [treeRep]
            constructor
            · rw [hgp0]
            · refine sibRep_frame _ _ ?_ hccsrep
              intro b hb
              have hbca : b ≠ ca := fun h => hcanotccs (h ▸ hb)
              exact hframe0 b hbca (hccsdisj b hb)
          · rw [RT.addr_node]
            exact hsib0
        · intro b hbp hbf
          have hbca : b ≠ ca := by
            intro h
            apply hbf
            rw [addrsF]
            exact List.mem_append_left _
              (h ▸ addr_mem_addrsT (RT.node ca cv ccs))
          have hbrest : b ∉ addrsF rest := by
            intro h
            apply hbf
            rw [addrsF]
            exact List.mem_append_right _ h
          exact hframe0 b hbca hbrest
  termination_by cs tok m p pn parent hsib hp hnd hmode htok => sizeOf cs
  decreasing_by
  all_goals simp_wf
  all_goals omega

mutual
theorem cutT_ord (tok : Nat) : ∀ (t : RT α) (pr : RT α × RT α),
    heapOrd t → cutT tok t = some pr → heapOrd pr.1 ∧ heapOrd pr.2
  | .node b v cs, pr, hord, hcut => by
    rw [cutT] at hcut
    cases hc : cutF tok cs with
    | none => rw [hc] at hcut; cases hcut
    | some p =>
      rw [hc] at hcut
      simp only [Option.map_some'] at hcut
      cases hcut
      rw [heapOrd] at hord
      obtain ⟨hs, hcs'⟩ := cutF_ord tok cs v p hord hc
      refine ⟨hs, ?_⟩
      show heapOrd (RT.node b v p.2)
      rw [heapOrd]
      exact hcs'
theorem cutF_ord (tok : Nat) : ∀ (cs : List (RT α)) (v : α)
    (pr : RT α × List (RT α)),
    heapOrdF v cs → cutF tok cs = some pr →
    heapOrd pr.1 ∧ heapOrdF v pr.2
  | [], v, pr, _, hcut => by rw [cutF] at hcut; cases hcut
  | c :: rest, v, pr, hord, hcut => by
    rw [cutF] at hcut
    rw [heapOrdF] at hord
    by_cases hca : c.addr = tok
    · rw [if_pos hca] at hcut
      cases hcut
      exact ⟨hord.2.1, hord.2.2⟩
    · rw [if_neg hca] at hcut
      cases hc : cutT tok c with
      | some p =>
        obtain ⟨s0, c2⟩ := p
        rw [hc] at hcut
        cases hcut
        obtain ⟨hs, hc2⟩ := cutT_ord tok c (s0, c2) hord.2.1 hc
        refine ⟨hs, ?_⟩
        show heapOrdF v (c2 :: rest)
        rw [heapOrdF]
        refine ⟨?_, hc2, hord.2.2⟩
        rw [(cutT_perm tok c (s0, c2) hc).2.2.1]
        exact hord.1
      | none =>
        rw [hc] at hcut
        cases hr : cutF tok rest with
        | none => rw [hr] at hcut; cases hcut
        | some p =>
          rw [hr] at hcut
          simp only [Option.map_some'] at hcut
          cases hcut
          obtain ⟨hs, hrest'⟩ := cutF_ord tok rest v p hord.2.2 hr
          refine ⟨hs, ?_⟩
          show heapOrdF v (c :: p.2)
          rw [heapOrdF]
          exact ⟨hord.1, hord.2.1, hrest'⟩
end

/-!
## The specifications of decrease_key
-/

/-- `decrease_key` on the current root: only the value of the root's
node is mutated, nothing else changes. -/
theorem decrease_key_root_spec {h : Heap α} {token : Token} {n : PNode α}
    (hget : mget h.mem token = some n) (hroot : h.root = some token)
    (f : α → α) :
    h.decrease_key token f =
      some ⟨h.root, mset h.mem token (PNode.mk (f n.value) n.first_child
        n.prev n.next)⟩ := by
  rw [Heap.decrease_key]
  simp only [Option.bind_eq_bind, Option.some_bind, updNode_eq hget]
  rw [if_pos hroot.symm]

/-- `decrease_key` on a non-root member: the value is updated in place,
the subtree is cut out and linked back with the root, and the result is
again a well-formed heap laying out the corresponding functional tree. -/
theorem decrease_key_spec {h : Heap α} {t : RT α} (hinv : InvT h t)
    {token : Token} (htok : token ∈ addrsT t) (hne : token ≠ t.addr)
    (f : α → α) :
    ∃ (pr : RT α × RT α) (h' : Heap α),
      cutT token (updVal token f t) = some pr ∧
      h.decrease_key token f = some h' ∧
      h'.root = some (linkTree pr.2 pr.1).addr ∧
      InvT h' (linkTree pr.2 pr.1) := by
  obtain ⟨r, v, cs⟩ := t
  obtain ⟨hroot, ⟨pv, hrep⟩, hlive, hnd⟩ := hinv
  rw [RT.addr_node] at hroot hne
  have htokF : token ∈ addrsF cs := by
    rw [addrsT_def] at htok
    cases htok with
    | head => exact absurd rfl hne
    | tail _ h2 => exact h2
  obtain ⟨ntok, hntok⟩ : ∃ n, mget h.mem token = some n :=
    Option.isSome_iff_exists.mp ((hlive token).mpr htok)
  set M1 : Mem α := mset h.mem token
    (PNode.mk (f ntok.value) ntok.first_child ntok.prev ntok.next) with hM1
  have hw : ∀ a, mget M1 a = if a = token
      then (mget h.mem a).map (fun n => { n with value := f n.value })
      else mget h.mem a := by
    intro a
    rcases eq_or_ne a token with rfl | hna
    · rw [if_pos rfl, hM1, mget_mset_self hntok, hntok]
      rfl
    · rw [if_neg hna, hM1, mget_mset_ne _ hna]
  have hrep1 : treeRep M1 (updVal token f (RT.node r v cs)) pv none :=
    updVal_treeRep hw _ pv none hrep
  rw [updVal, if_neg (Ne.symm hne)] at hrep1
  rw [treeRep] at hrep1
  obtain ⟨hgr1, hsib1⟩ := hrep1
  rw [headAddr_updValF] at hgr1
  have hndF : (r :: addrsF (updValF token f cs)).Nodup := by
    rw [addrsF_updValF]
    rwa [addrsT_def] at hnd
  obtain ⟨pr0, m2, hcut0, hunlink, hgp, hsib2, hroot0, hframe0, hlive0⟩ :=
    unlink_spec (updValF token f cs) token M1 r
      (PNode.mk v (headAddr cs) pv none) true hsib1 hgr1 hndF
      (by simp [headAddr_updValF]) (by rwa [addrsF_updValF])
  rw [if_pos rfl] at hgp
  have hcutT : cutT token (updVal token f (RT.node r v cs)) =
      some (pr0.1, RT.node r v pr0.2) := by
    rw [updVal, if_neg (Ne.symm hne), cutT, hcut0]
    rfl
  obtain ⟨haddr0, hperm0, hvperm0⟩ :=
    cutF_perm token (updValF token f cs) pr0 hcut0
  have hrept' : treeRep m2 (RT.node r v pr0.2) pv none := by
    rw [treeRep]
    refine ⟨?_, hsib2⟩
    rw [hgp]
  obtain ⟨pvs, hreps⟩ := hroot0
  have hndlink : (addrsT (RT.node r v pr0.2) ++ addrsT pr0.1).Nodup := by
    have hperm : (r :: addrsF (updValF token f cs)).Perm
        (addrsT (RT.node r v pr0.2) ++ addrsT pr0.1) := by
      rw [addrsT_def]
      refine ((hperm0.cons r).trans ?_)
      refine (List.perm_middle).symm.trans ?_
      show ((addrsT pr0.1 ++ (r :: addrsF pr0.2)) : List Nat).Perm _
      exact List.perm_append_comm
    exact hperm.nodup_iff.mp hndF
  obtain ⟨m3, hcal, hrepl, hframe3, hlive3⟩ :=
    compare_and_link_spec hrept' hreps hndlink
  rw [RT.addr_node, haddr0] at hcal
  refine ⟨(pr0.1, RT.node r v pr0.2), ⟨some (linkTree (RT.node r v pr0.2)
    pr0.1).addr, m3⟩, hcutT, ?_, rfl, rfl, ⟨pv, hrepl⟩, ?_, ?_⟩
  · rw [Heap.decrease_key]
    have hcond : ¬(some token = h.root) := by
      rw [hroot]
      intro hx
      exact hne (Option.some_injective _ hx)
    simp only [Option.bind_eq_bind, Option.some_bind, updNode_eq hntok,
      ← hM1, if_neg hcond, hunlink, hroot, hcal]
    rw [if_neg (fun hx => hne (Option.some_injective _ hx))]
  · intro a
    rw [hlive3 a, hlive0 a, hM1, isSome_mget_mset hntok, hlive a]
    rw [(addrsT_linkTree _ _).mem_iff, addrsT_def]
    constructor
    · intro ha
      rw [List.mem_append]
      rcases List.mem_cons.mp ha with ha | ha
      · left
        rw [addrsT_def, ha]
        exact List.mem_cons_self ..
      · have ha2 : a ∈ addrsT pr0.1 ++ addrsF pr0.2 :=
          (hperm0.mem_iff).mp (by rw [addrsF_updValF]; exact ha)
        rcases List.mem_append.mp ha2 with ha2 | ha2
        · right; exact ha2
        · left
          rw [addrsT_def]
          exact List.mem_cons_of_mem _ ha2
    · intro ha
      rcases List.mem_append.mp ha with ha | ha
      · rw [addrsT_def] at ha
        rcases List.mem_cons.mp ha with ha | ha
        · rw [ha]; exact List.mem_cons_self ..
        · refine List.mem_cons_of_mem _ ?_
          rw [← addrsF_updValF token f cs]
          exact (hperm0.mem_iff).mpr
            (List.mem_append_right _ ha)
      · refine List.mem_cons_of_mem _ ?_
        rw [← addrsF_updValF token f cs]
        exact (hperm0.mem_iff).mpr (List.mem_append_left _ ha)
  · refine ((addrsT_linkTree _ _).nodup_iff).mpr ?_
    rw [List.nodup_append] at hndlink ⊢
    exact hndlink

/-!
## Heap order across decrease_key, and reachable states
-/

theorem updVal_val (a : Nat) (f : α → α) (t : RT α) :
    (updVal a f t).val = if t.addr = a then f t.val else t.val := by
  cases t with
  | node b v cs => rw [updVal, RT.val_node, RT.addr_node, RT.val_node]

theorem updValF_not_mem (f : α → α) : ∀ (cs : List (RT α)) (a : Nat),
    a ∉ addrsF cs → updValF a f cs = cs
  | [], _ => by intro _; rw [updValF]
  | c :: rest, a => by
    intro ha
    rw [addrsF] at ha
    rw [updValF, updVal_not_mem f c a (fun hm => ha (List.mem_append_left _ hm)),
      updValF_not_mem f rest a (fun hm => ha (List.mem_append_right _ hm))]

theorem heapOrdF_mem {v : α} : ∀ {cs : List (RT α)}, heapOrdF v cs →
    ∀ c ∈ cs, heapOrd c := by
  intro cs
  induction cs with
  | nil => intro _ c hc; cases hc
  | cons d rest ih =>
    intro hord c hc
    rw [heapOrdF] at hord
    cases hc with
    | head => exact hord.2.1
    | tail _ hc => exact ih hord.2.2 c hc

/-- Decreasing the value at the root of a heap-ordered tree keeps it
heap ordered. -/
theorem heapOrd_updVal_root {f : α → α} {t : RT α} (hord : heapOrd t)
    (hnm : t.addr ∉ addrsF t.cs) (hf : f t.val ≤ t.val) :
    heapOrd (updVal t.addr f t) := by
  cases t with
  | node b v cs =>
    rw [RT.addr_node, RT.cs_node] at hnm
    rw [RT.addr_node, updVal, if_pos rfl,
      updValF_not_mem f cs b hnm, heapOrd]
    rw [heapOrd] at hord
    exact heapOrdF_mono (by simpa using hf) cs hord

theorem sizeT_ne_zero (t : RT α) : sizeT t ≠ 0 := by
  cases t with
  | node a v cs =>
    rw [sizeT, addrsT_def]
    simp

mutual
/-- The value recorded in memory at the address of a cut subtree is the
subtree's root value. -/
theorem cutT_points {m : Mem α} (a : Nat) : ∀ (t : RT α) (pv nx : Option Nat)
    (pr : RT α × RT α), treeRep m t pv nx → cutT a t = some pr →
    ∃ nn, mget m a = some nn ∧ nn.value = pr.1.val
  | .node b v cs, pv, nx, pr, hrep, hcut => by
    rw [cutT] at hcut
    cases hc : cutF a cs with
    | none => rw [hc] at hcut; cases hcut
    | some p =>
      rw [hc] at hcut
      simp only [Option.map_some'] at hcut
      cases hcut
      rw [treeRep] at hrep
      exact cutF_points a cs b p hrep.2 hc
theorem cutF_points {m : Mem α} (a : Nat) : ∀ (cs : List (RT α)) (q : Nat)
    (pr : RT α × List (RT α)), sibRep m q cs → cutF a cs = some pr →
    ∃ nn, mget m a = some nn ∧ nn.value = pr.1.val
  | [], q, pr, _, hcut => by rw [cutF] at hcut; cases hcut
  | c :: rest, q, pr, hsib, hcut => by
    rw [sibRep] at hsib
    rw [cutF] at hcut
    by_cases hca : c.addr = a
    · rw [if_pos hca] at hcut
      cases hcut
      cases c with
      | node ca cv ccs =>
        rw [RT.addr_node] at hca
        subst hca
        rw [treeRep] at hsib
        exact ⟨_, hsib.1.1, rfl⟩
    · rw [if_neg hca] at hcut
      cases hc : cutT a c with
      | some p =>
        obtain ⟨s0, c2⟩ := p
        rw [hc] at hcut
        cases hcut
        exact cutT_points a c _ _ (s0, c2) hsib.1 hc
      | none =>
        rw [hc] at hcut
        cases hr : cutF a rest with
        | none => rw [hr] at hcut; cases hcut
        | some p2 =>
          rw [hr] at hcut
          simp only [Option.map_some'] at hcut
          cases hcut
          exact cutF_points a rest c.addr p2 hsib.2 hr
end

/-- A successful `decrease_key` dereferenced a live token. -/
theorem decrease_key_live {h : Heap α} {tok : Token} {f : α → α}
    {h' : Heap α} (hdk : h.decrease_key tok f = some h') :
    ∃ n, mget h.mem tok = some n := by
  cases hm : mget h.mem tok with
  | some n => exact ⟨n, rfl⟩
  | none =>
    rw [Heap.decrease_key, updNode, hm] at hdk
    cases hdk

/-- `decrease_key` preserves the structural invariant for any mutation,
and the heap order when the mutation only decreases values. -/
theorem decrease_key_Inv {h : Heap α} {t : RT α} (hinv : InvT h t)
    {tok : Token} {f : α → α} {h' : Heap α}
    (hdk : h.decrease_key tok f = some h') :
    ∃ t', InvT h' t' ∧
      (heapOrd t → (∀ x, f x ≤ x) → heapOrd t') := by
  obtain ⟨n, hn⟩ := decrease_key_live hdk
  have htok : tok ∈ addrsT t := (hinv.2.2.1 tok).mp (by rw [hn]; rfl)
  by_cases hroot : tok = t.addr
  · obtain ⟨hre, ⟨pv, hrep⟩, hlive, hnd⟩ := hinv
    have hre2 : h.root = some tok := by rw [hroot]; exact hre
    rw [decrease_key_root_spec hn hre2 f] at hdk
    cases hdk
    have hw : ∀ a, mget (mset h.mem tok
        (PNode.mk (f n.value) n.first_child n.prev n.next)) a =
        if a = tok
          then (mget h.mem a).map (fun q => { q with value := f q.value })
          else mget h.mem a := by
      intro a
      rcases eq_or_ne a tok with rfl | hna
      · rw [if_pos rfl, mget_mset_self hn, hn]
        rfl
      · rw [if_neg hna, mget_mset_ne _ hna]
    refine ⟨updVal tok f t, ⟨?_, ⟨pv, updVal_treeRep hw t pv none hrep⟩,
      ?_, ?_⟩, ?_⟩
    · rw [updVal_addr]
      exact hre
    · intro a
      rw [addrsT_updVal]
      rcases eq_or_ne a tok with rfl | hna
      · rw [isSome_mget_mset hn]
        exact hlive a
      · rw [mget_mset_ne _ hna]
        exact hlive a
    · rw [addrsT_updVal]
      exact hnd
    · intro hord hf
      have hnm : t.addr ∉ addrsF t.cs := by
        cases t with
        | node b v cs =>
          rw [addrsT_def, List.nodup_cons] at hnd
          exact hnd.1
      rw [hroot]
      exact heapOrd_updVal_root hord hnm (hf t.val)
  · obtain ⟨pr, h'', hcutT, hdk2, hroot'', hinv''⟩ :=
      decrease_key_spec hinv htok hroot f
    rw [hdk2] at hdk
    cases hdk
    refine ⟨linkTree pr.2 pr.1, hinv'', ?_⟩
    intro hord hf
    rw [cutT_updVal] at hcutT
    cases hp0 : cutT tok t with
    | none => rw [hp0] at hcutT; cases hcutT
    | some p0 =>
      rw [hp0] at hcutT
      simp only [Option.map_some'] at hcutT
      cases hcutT
      obtain ⟨hp1ord, hp2ord⟩ := cutT_ord tok t p0 hord hp0
      obtain ⟨ha1, _, _, hperm, _⟩ := cutT_perm tok t p0 hp0
      have hndp : (addrsT p0.1 ++ addrsT p0.2).Nodup :=
        hperm.nodup_iff.mp hinv.2.2.2
      rw [List.nodup_append] at hndp
      have h2nm : tok ∉ addrsT p0.2 :=
        fun hm => hndp.2.2 (ha1 ▸ addr_mem_addrsT p0.1) hm
      have h1nm : tok ∉ addrsF p0.1.cs := ha1 ▸ addr_not_mem_cs hndp.1
      rw [updVal_not_mem f p0.2 tok h2nm]
      refine heapOrd_linkTree hp2ord ?_
      have := heapOrd_updVal_root hp1ord (ha1 ▸ h1nm) (hf p0.1.val)
      rwa [ha1] at this

/-- The states reachable by the three operations from a fresh heap. -/
inductive Reach : Heap α → Prop where
  | new : Reach Heap.new
  | push {h h' : Heap α} {v : α} {tok : Token} :
      Reach h → h.push v = some (h', tok) → Reach h'
  | pop {h h' : Heap α} {v : Option α} :
      Reach h → h.pop = some (v, h') → Reach h'
  | dec {h h' : Heap α} {tok : Token} {f : α → α} :
      Reach h → h.decrease_key tok f = some h' → Reach h'

/-- The states reachable when every `decrease_key` mutation only
decreases the value. -/
inductive ReachOrd : Heap α → Prop where
  | new : ReachOrd Heap.new
  | push {h h' : Heap α} {v : α} {tok : Token} :
      ReachOrd h → h.push v = some (h', tok) → ReachOrd h'
  | pop {h h' : Heap α} {v : Option α} :
      ReachOrd h → h.pop = some (v, h') → ReachOrd h'
  | dec {h h' : Heap α} {tok : Token} {f : α → α} :
      ReachOrd h → (∀ x, f x ≤ x) → h.decrease_key tok f = some h' →
      ReachOrd h'

theorem Inv_new : ((Heap.new : Heap α).root = none ∧
    ∀ a, mget (Heap.new : Heap α).mem a = none) :=
  ⟨rfl, fun _ => rfl⟩

/-- `push` preserves the invariant (together with heap order). -/
theorem push_InvOrd {h h' : Heap α} {v : α} {tok : Token}
    (hp : h.push v = some (h', tok)) :
    (((h.root = none ∧ ∀ a, mget h.mem a = none) → ∃ t, InvT h' t) ∧
     (∀ t, InvT h t → ∃ t', InvT h' t' ∧ (heapOrd t → heapOrd t'))) := by
  constructor
  · intro ⟨hroot, hdead⟩
    obtain ⟨heq, hinv⟩ := push_empty_spec hroot hdead v
    rw [heq] at hp
    cases hp
    exact ⟨_, hinv⟩
  · intro t hinv
    obtain ⟨h'', heq, hinv'⟩ := push_spec hinv v
    rw [heq] at hp
    cases hp
    refine ⟨_, hinv', ?_⟩
    intro hord
    refine heapOrd_linkTree hord ?_
    rw [heapOrd, heapOrdF]
    trivial

/-- `pop` preserves the invariant (together with heap order). -/
theorem pop_InvOrd {h h' : Heap α} {v : Option α}
    (hp : h.pop = some (v, h')) :
    (((h.root = none ∧ ∀ a, mget h.mem a = none) →
        (h'.root = none ∧ ∀ a, mget h'.mem a = none)) ∧
     (∀ t, InvT h t →
        ((h'.root = none ∧ ∀ a, mget h'.mem a = none) ∨
         ∃ t', InvT h' t' ∧ (heapOrd t → heapOrd t')))) := by
  constructor
  · intro ⟨hroot, hdead⟩
    rw [pop_empty_spec hroot] at hp
    cases hp
    exact ⟨hroot, hdead⟩
  · intro t hinv
    obtain ⟨h'', heq, hres⟩ := pop_spec hinv
    rw [heq] at hp
    cases hp
    rcases hres with ⟨hroot, hdead, _⟩ | ⟨c0, csr, hcs, hinv'⟩
    · exact Or.inl ⟨hroot, hdead⟩
    · refine Or.inr ⟨_, hinv', ?_⟩
      intro hord
      refine heapOrd_combTree c0 csr ?_
      cases t with
      | node a w cs =>
        rw [RT.cs_node] at hcs
        subst hcs
        rw [heapOrd] at hord
        exact heapOrdF_mem hord

/-- Every reachable state satisfies the structural invariant. -/
theorem Reach_Inv {h : Heap α} (hr : Reach h) : Inv h := by
  induction hr with
  | new => exact Or.inl Inv_new
  | push hr hp ih =>
    rcases ih with hemp | ⟨t, hinv⟩
    · exact Or.inr ((push_InvOrd hp).1 hemp)
    · obtain ⟨t', hinv', _⟩ := (push_InvOrd hp).2 t hinv
      exact Or.inr ⟨t', hinv'⟩
  | pop hr hp ih =>
    rcases ih with hemp | ⟨t, hinv⟩
    · exact Or.inl ((pop_InvOrd hp).1 hemp)
    · rcases (pop_InvOrd hp).2 t hinv with hemp | ⟨t', hinv', _⟩
      · exact Or.inl hemp
      · exact Or.inr ⟨t', hinv'⟩
  | dec hr hdk ih =>
    rcases ih with hemp | ⟨t, hinv⟩
    · obtain ⟨n, hn⟩ := decrease_key_live hdk
      rw [hemp.2] at hn
      cases hn
    · obtain ⟨t', hinv', _⟩ := decrease_key_Inv hinv hdk
      exact Or.inr ⟨t', hinv'⟩

/-- Every state reachable with decrease-only mutations satisfies the
invariant together with min-heap order. -/
theorem ReachOrd_InvOrd {h : Heap α} (hr : ReachOrd h) : InvOrd h := by
  induction hr with
  | new => exact Or.inl Inv_new
  | push hr hp ih =>
    rcases ih with hemp | ⟨t, hinv, hord⟩
    · obtain ⟨heq, hinv2⟩ := push_empty_spec hemp.1 hemp.2 _
      rw [heq] at hp
      cases hp
      refine Or.inr ⟨_, hinv2, ?_⟩
      rw [heapOrd, heapOrdF]
      trivial
    · obtain ⟨t', hinv', hordf⟩ := (push_InvOrd hp).2 t hinv
      exact Or.inr ⟨t', hinv', hordf hord⟩
  | pop hr hp ih =>
    rcases ih with hemp | ⟨t, hinv, hord⟩
    · exact Or.inl ((pop_InvOrd hp).1 hemp)
    · rcases (pop_InvOrd hp).2 t hinv with hemp | ⟨t', hinv', hordf⟩
      · exact Or.inl hemp
      · exact Or.inr ⟨t', hinv', hordf hord⟩
  | dec hr hf hdk ih =>
    rcases ih with hemp | ⟨t, hinv, hord⟩
    · obtain ⟨n, hn⟩ := decrease_key_live hdk
      rw [hemp.2] at hn
      cases hn
    · obtain ⟨t', hinv', hordf⟩ := decrease_key_Inv hinv hdk
      exact Or.inr ⟨t', hinv', hordf hord hf⟩

/-!
## Draining a heap, pushing a sequence, running an operation script
-/

theorem drain_empty {h : Heap α} (hroot : h.root = none) :
    ∀ n, drain n h = some [] := by
  intro n
  cases n with
  | zero => simp only [drain, hroot]
  | succ n => simp only [drain, pop_empty_spec hroot]

/-- Draining a well-formed heap-ordered heap with fuel equal to its size
returns exactly its stored values, sorted. -/
theorem drain_sorted (n : Nat) : ∀ (h : Heap α) (t : RT α),
    InvT h t → heapOrd t → sizeT t = n →
    ∃ out, drain n h = some out ∧ out.Perm (valuesT t) ∧
      List.Sorted (· ≤ ·) out := by
  induction n with
  | zero =>
    intro h t hinv hord hsz
    exact absurd hsz (sizeT_ne_zero t)
  | succ n ih =>
    intro h t hinv hord hsz
    obtain ⟨h', hpop, hres⟩ := pop_spec hinv
    rcases hres with ⟨hroot', hdead, hcs⟩ | ⟨c0, csr, hcs, hinv'⟩
    · refine ⟨[t.val], ?_, ?_, List.sorted_singleton _⟩
      · simp only [drain, hpop, drain_empty hroot' n, Option.map_some']
      · cases t with
        | node a v cs =>
          rw [RT.cs_node] at hcs
          subst hcs
          rw [valuesT_def, valuesF, RT.val_node]
    · have hordc : heapOrd (combTree c0 csr) := by
        refine heapOrd_combTree c0 csr ?_
        cases t with
        | node a w cs =>
          rw [RT.cs_node] at hcs
          subst hcs
          rw [heapOrd] at hord
          exact heapOrdF_mem hord
      have hszc : sizeT (combTree c0 csr) = n := by
        have hlen := (addrsT_combTree c0 csr).length_eq
        cases t with
        | node a w cs =>
          rw [RT.cs_node] at hcs
          subst hcs
          rw [sizeT, addrsT_def, List.length_cons] at hsz
          rw [sizeT, hlen]
          omega
      obtain ⟨out', hdr, hperm', hsort'⟩ :=
        ih h' (combTree c0 csr) hinv' hordc hszc
      refine ⟨t.val :: out', ?_, ?_, ?_⟩
      · simp only [drain, hpop, hdr, Option.map_some']
      · have h2 : out'.Perm (valuesF (c0 :: csr)) :=
          hperm'.trans (valuesT_combTree c0 csr)
        cases t with
        | node a w cs =>
          rw [RT.cs_node] at hcs
          subst hcs
          rw [valuesT_def, RT.val_node]
          exact h2.cons w
      · rw [List.sorted_cons]
        refine ⟨?_, hsort'⟩
        intro b hb
        refine heapOrd_min t hord b ?_
        have hb2 : b ∈ valuesF (c0 :: csr) :=
          (hperm'.trans (valuesT_combTree c0 csr)).subset hb
        cases t with
        | node a w cs =>
          rw [RT.cs_node] at hcs
          subst hcs
          rw [valuesT_def]
          exact List.mem_cons_of_mem _ hb2

/-- Pushing a sequence of values onto a well-formed heap succeeds and
adds exactly those values. -/
theorem pushAll_ok : ∀ (vs : List α) (h : Heap α) (t : RT α),
    InvT h t → heapOrd t →
    ∃ h' t', pushAll h vs = some h' ∧ InvT h' t' ∧ heapOrd t' ∧
      (valuesT t').Perm (valuesT t ++ vs) ∧
      sizeT t' = sizeT t + vs.length := by
  intro vs
  induction vs with
  | nil =>
    intro h t hinv hord
    refine ⟨h, t, rfl, hinv, hord, ?_, ?_⟩
    · rw [List.append_nil]
    · simp
  | cons v vs ih =>
    intro h t hinv hord
    obtain ⟨h1, heq, hinv1⟩ := push_spec hinv v
    have hord1 : heapOrd (linkTree t (RT.node h.mem.length v [])) := by
      refine heapOrd_linkTree hord ?_
      rw [heapOrd, heapOrdF]
      trivial
    obtain ⟨h', t', heq', hinv', hord', hperm', hsz'⟩ :=
      ih h1 _ hinv1 hord1
    refine ⟨h', t', ?_, hinv', hord', ?_, ?_⟩
    · simp only [pushAll, heq, Option.bind_eq_bind, Option.some_bind, heq']
    · refine hperm'.trans ?_
      have h2 : (valuesT (linkTree t (RT.node h.mem.length v []))).Perm
          (valuesT t ++ [v]) := by
        have h3 := valuesT_linkTree t (RT.node h.mem.length v [])
        rwa [valuesT_def, valuesF] at h3
      refine (h2.append_right vs).trans ?_
      rw [List.append_assoc]
      rfl
    · have h2 : sizeT (linkTree t (RT.node h.mem.length v [])) =
          sizeT t + 1 := by
        rw [sizeT, (addrsT_linkTree _ _).length_eq, List.length_append,
          addrsT_def, addrsF, sizeT]
        rfl
      rw [hsz', h2, List.length_cons]
      omega

/-- Pushing a nonempty sequence onto a fresh heap. -/
theorem pushAll_new (v : α) (vs : List α) :
    ∃ h' t', pushAll (Heap.new : Heap α) (v :: vs) = some h' ∧
      InvT h' t' ∧ heapOrd t' ∧ (valuesT t').Perm (v :: vs) ∧
      sizeT t' = vs.length + 1 := by
  obtain ⟨heq, hinv⟩ :=
    push_empty_spec (h := (Heap.new : Heap α)) rfl (fun _ => rfl) v
  have hord : heapOrd (RT.node (Heap.new : Heap α).mem.length v []) := by
    rw [heapOrd, heapOrdF]
    trivial
  obtain ⟨h', t', heq', hinv', hord', hperm', hsz'⟩ :=
    pushAll_ok vs _ _ hinv hord
  refine ⟨h', t', ?_, hinv', hord', ?_, ?_⟩
  · simp only [pushAll, heq, Option.bind_eq_bind, Option.some_bind, heq']
  · refine hperm'.trans ?_
    rw [valuesT_def, valuesF]
    rfl
  · rw [hsz', sizeT, addrsT_def, addrsF]
    simp [Nat.add_comm]

/-- The stored multiset of a heap state: empty for the empty state, the
values of the represented heap-ordered tree otherwise. -/
def storedRel (h : Heap α) (S : List α) : Prop :=
  (h.root = none ∧ (∀ a, mget h.mem a = none) ∧ S = []) ∨
  (∃ t, InvT h t ∧ heapOrd t ∧ (valuesT t).Perm S)

/-- Running any interleaving of pushes and pops from a well-formed state
succeeds, and the values returned by pops plus the values still stored
are exactly the initial ones plus the pushed ones. -/
theorem run_ok : ∀ (ops : List (Op α)) (h : Heap α) (outs S : List α),
    storedRel h S →
    ∃ h' outs' S', run h outs ops = some (h', outs') ∧
      storedRel h' S' ∧ (outs' ++ S').Perm (outs ++ S ++ pushedVals ops) := by
  intro ops
  induction ops with
  | nil =>
    intro h outs S hst
    refine ⟨h, outs, S, rfl, hst, ?_⟩
    rw [pushedVals, List.append_nil]
  | cons op ops ih =>
    intro h outs S hst
    cases op with
    | push v =>
      rcases hst with ⟨hroot, hdead, hS⟩ | ⟨t, hinv, hord, hperm⟩
      · obtain ⟨heq, hinv⟩ := push_empty_spec hroot hdead v
        have hst1 : storedRel (⟨some h.mem.length,
            h.mem ++ [some (PNode.mk v none none none)]⟩ : Heap α) [v] := by
          refine Or.inr ⟨_, hinv, ?_, ?_⟩
          · rw [heapOrd, heapOrdF]
            trivial
          · rw [valuesT_def, valuesF]
        obtain ⟨h', outs', S', heq', hst', hperm'⟩ := ih _ outs [v] hst1
        refine ⟨h', outs', S', ?_, hst', ?_⟩
        · simp only [run, heq, Option.bind_eq_bind, Option.some_bind, heq']
        · refine hperm'.trans ?_
          rw [pushedVals, hS]
          simp
      · obtain ⟨h1, heq, hinv1⟩ := push_spec hinv v
        have hord1 : heapOrd (linkTree t (RT.node h.mem.length v [])) := by
          refine heapOrd_linkTree hord ?_
          rw [heapOrd, heapOrdF]
          trivial
        have hperm1 : (valuesT (linkTree t
            (RT.node h.mem.length v []))).Perm (S ++ [v]) := by
          have h3 := valuesT_linkTree t (RT.node h.mem.length v [])
          rw [valuesT_def, valuesF] at h3
          exact h3.trans (hperm.append_right [v])
        obtain ⟨h', outs', S', heq', hst', hperm'⟩ :=
          ih h1 outs (S ++ [v]) (Or.inr ⟨_, hinv1, hord1, hperm1⟩)
        refine ⟨h', outs', S', ?_, hst', ?_⟩
        · simp only [run, heq, Option.bind_eq_bind, Option.some_bind, heq']
        · refine hperm'.trans ?_
          rw [pushedVals]
          simp only [List.append_assoc, List.singleton_append]
          exact List.Perm.refl _
    | pop =>
      rcases hst with ⟨hroot, hdead, hS⟩ | ⟨t, hinv, hord, hperm⟩
      · obtain ⟨h', outs', S', heq', hst', hperm'⟩ :=
          ih h outs S (Or.inl ⟨hroot, hdead, hS⟩)
        refine ⟨h', outs', S', ?_, hst', ?_⟩
        · simp only [run, pop_empty_spec hroot, Option.bind_eq_bind,
            Option.some_bind, heq']
        · refine hperm'.trans ?_
          rw [pushedVals]
      · obtain ⟨h1, hpop, hres⟩ := pop_spec hinv
        have hnext : ∃ S1, storedRel h1 S1 ∧
            (t.val :: S1).Perm S := by
          rcases hres with ⟨hroot', hdead, hcs⟩ | ⟨c0, csr, hcs, hinv'⟩
          · refine ⟨[], Or.inl ⟨hroot', hdead, rfl⟩, ?_⟩
            refine List.Perm.trans ?_ hperm
            cases t with
            | node a v cs =>
              rw [RT.cs_node] at hcs
              subst hcs
              rw [valuesT_def, valuesF, RT.val_node]
          · have hordc : heapOrd (combTree c0 csr) := by
              refine heapOrd_combTree c0 csr ?_
              cases t with
              | node a w cs =>
                rw [RT.cs_node] at hcs
                subst hcs
                rw [heapOrd] at hord
                exact heapOrdF_mem hord
            refine ⟨valuesT (combTree c0 csr),
              Or.inr ⟨_, hinv', hordc, List.Perm.refl _⟩, ?_⟩
            refine List.Perm.trans ?_ hperm
            cases t with
            | node a w cs =>
              rw [RT.cs_node] at hcs
              subst hcs
              rw [valuesT_def, RT.val_node]
              exact (valuesT_combTree c0 csr).cons w
        obtain ⟨S1, hst1, hperm1⟩ := hnext
        obtain ⟨h', outs', S', heq', hst', hperm'⟩ :=
          ih h1 (outs ++ [t.val]) S1 hst1
        refine ⟨h', outs', S', ?_, hst', ?_⟩
        · simp only [run, hpop, Option.bind_eq_bind, Option.some_bind, heq']
        · refine hperm'.trans ?_
          rw [pushedVals]
          refine List.Perm.append_right (pushedVals ops) ?_
          have h4 : (outs ++ [t.val] ++ S1 : List α) =
              outs ++ (t.val :: S1) := by
            rw [List.append_assoc]
            rfl
          rw [h4]
          exact List.Perm.append_left outs hperm1

/-!
## Non-root nodes carry a non-null prev link
-/

theorem mget_none_of_le {m : Mem α} {a : Nat} (h : m.length ≤ a) :
    mget m a = none := by
  cases hm : mget m a with
  | none => rfl
  | some n => exact absurd (mget_lt_length hm) (Nat.not_lt.mpr h)

mutual
/-- In a laid-out tree every node but the root has a `some` prev link
(the parent for a leftmost child, the left sibling otherwise). -/
theorem treeRep_prev_some {m : Mem α} : ∀ (t : RT α) (pv nx : Option Nat),
    treeRep m t pv nx → ∀ a, a ∈ addrsT t → a ≠ t.addr →
    ∃ nn p, mget m a = some nn ∧ nn.prev = some p
  | .node b v cs, pv, nx, hrep, a, ha, hne => by
    rw [treeRep] at hrep
    rw [addrsT_def] at ha
    rw [RT.addr_node] at hne
    cases ha with
    | head => exact absurd rfl hne
    | tail _ ha => exact sibRep_prev_some cs b hrep.2 a ha
theorem sibRep_prev_some {m : Mem α} : ∀ (cs : List (RT α)) (q : Nat),
    sibRep m q cs → ∀ a, a ∈ addrsF cs →
    ∃ nn p, mget m a = some nn ∧ nn.prev = some p
  | [], q, _, a, ha => by rw [addrsF] at ha; cases ha
  | c :: rest, q, hsib, a, ha => by
    rw [sibRep] at hsib
    rw [addrsF, List.mem_append] at ha
    rcases ha with ha | ha
    · by_cases hca : a = c.addr
      · have := treeRep_node hsib.1
        exact ⟨_, q, hca ▸ this, rfl⟩
      · exact treeRep_prev_some c (some q) (headAddr rest) hsib.1 a ha hca
    · exact sibRep_prev_some rest c.addr hsib.2 a ha
end

/-!
## The claims
-/

/-- Claim C1: for every finite sequence of values pushed onto a fresh heap (in
any order, duplicates allowed), repeatedly popping until the heap is
empty yields the pushed values in non-decreasing order. -/
theorem claim_sorted_drain (vs : List α) :
    ∃ (h : Heap α) (out : List α), pushAll Heap.new vs = some h ∧
      drain vs.length h = some out ∧ out.Perm vs ∧
      List.Sorted (· ≤ ·) out := by
  cases vs with
  | nil => exact ⟨Heap.new, [], rfl, rfl, List.Perm.refl _, List.sorted_nil⟩
  | cons v vs =>
    obtain ⟨h, t, heq, hinv, hord, hperm, hsz⟩ := pushAll_new v vs
    obtain ⟨out, hdr, hperm', hsort⟩ :=
      drain_sorted (vs.length + 1) h t hinv hord hsz
    exact ⟨h, out, heq, hdr, hperm'.trans hperm, hsort⟩

/-- Claim C2: for every interleaving of push and pop operations from a fresh
heap, the multiset of values returned by successful pops plus the
multiset still stored in the heap equals the multiset of pushed values:
each pushed value is popped exactly once before the heap is empty. -/
theorem claim_run_multiset (ops : List (Op α)) :
    ∃ (h : Heap α) (outs S : List α),
      run Heap.new [] ops = some (h, outs) ∧ storedRel h S ∧
      (outs ++ S).Perm (pushedVals ops) := by
  obtain ⟨h', outs', S', heq, hst, hperm⟩ :=
    run_ok ops Heap.new [] [] (Or.inl ⟨rfl, fun _ => rfl, rfl⟩)
  exact ⟨h', outs', S', heq, hst, by simpa using hperm⟩

/-- Claim C3: min-heap order is an invariant of every state reachable by push,
pop and decrease-only decrease_key: the laid-out tree is heap ordered,
so each node's children hold values not less than the node's own value,
and the root value is a minimum of the stored multiset. -/
theorem claim_heap_order {h : Heap α} (hr : ReachOrd h) :
    (h.root = none ∧ ∀ a, mget h.mem a = none) ∨
      ∃ t, InvT h t ∧ heapOrd t ∧ ∀ x ∈ valuesT t, t.val ≤ x := by
  rcases ReachOrd_InvOrd hr with hemp | ⟨t, hinv, hord⟩
  · exact Or.inl hemp
  · exact Or.inr ⟨t, hinv, hord, heapOrd_min t hord⟩

theorem claim_heap_order_witness :
    ((⟨some 0, [some (PNode.mk (5 : ℕ) none none none)]⟩ : Heap ℕ).root
        = none ∧
      ∀ a, mget (⟨some 0, [some (PNode.mk (5 : ℕ) none none none)]⟩ :
        Heap ℕ).mem a = none) ∨
    ∃ t, InvT (⟨some 0, [some (PNode.mk (5 : ℕ) none none none)]⟩ :
        Heap ℕ) t ∧ heapOrd t ∧ ∀ x ∈ valuesT t, t.val ≤ x :=
  claim_heap_order (ReachOrd.push ReachOrd.new rfl)

/-- Claim C5: pop on an empty heap returns the empty result and leaves the
heap unchanged, and every repeated pop keeps returning the empty
result on the unchanged heap. -/
theorem claim_pop_empty {h : Heap α} (hroot : h.root = none) :
    h.pop = some (none, h) ∧
      ∀ k, popN k h = some (List.replicate k none, h) := by
  refine ⟨pop_empty_spec hroot, ?_⟩
  intro k
  induction k with
  | zero => rfl
  | succ k ih =>
    simp only [popN, pop_empty_spec hroot, Option.bind_eq_bind,
      Option.some_bind, ih, List.replicate]

theorem claim_pop_empty_witness :
    (⟨none, []⟩ : Heap ℕ).pop = some (none, ⟨none, []⟩) ∧
      popN 3 (⟨none, []⟩ : Heap ℕ) = some ([none, none, none], ⟨none, []⟩) := by
  refine ⟨(claim_pop_empty rfl).1, ?_⟩
  have h2 := (claim_pop_empty (h := (⟨none, []⟩ : Heap ℕ)) rfl).2 3
  simpa using h2

/-- Claim C6: the link primitive: an absent second argument returns the first
unchanged; when the second root's value is strictly smaller it becomes
the root with the first pushed in front of its child list; otherwise —
including on equal values — the first becomes the root with the second
as its new leftmost child. -/
theorem claim_link {m : Mem α} {t1 t2 : RT α} {pv1 pv2 : Option Nat}
    (h1 : treeRep m t1 pv1 none) (h2 : treeRep m t2 pv2 none)
    (hnd : (addrsT t1 ++ addrsT t2).Nodup) (first : Option Nat) :
    compare_and_link m first none = some (first, m) ∧
    (∃ m', compare_and_link m (some t1.addr) (some t2.addr) =
        some (some (linkTree t1 t2).addr, m') ∧
      treeRep m' (linkTree t1 t2) pv1 none) ∧
    (t2.val < t1.val →
      linkTree t1 t2 = RT.node t2.addr t2.val (t1 :: t2.cs)) ∧
    (t1.val ≤ t2.val →
      linkTree t1 t2 = RT.node t1.addr t1.val (t2 :: t1.cs)) := by
  refine ⟨rfl, ?_, ?_, ?_⟩
  · obtain ⟨m', hcal, hrep, _, _⟩ := compare_and_link_spec h1 h2 hnd
    exact ⟨m', hcal, hrep⟩
  · intro hlt
    rw [linkTree, if_pos hlt]
  · intro hle
    rw [linkTree, if_neg (not_lt.mpr hle)]

theorem claim_link_witness :
    compare_and_link
        [some (PNode.mk (5 : ℕ) none none none),
         some (PNode.mk (5 : ℕ) none none none)] (some 0) none =
      some (some 0, [some (PNode.mk (5 : ℕ) none none none),
         some (PNode.mk (5 : ℕ) none none none)]) ∧
    (∃ m', compare_and_link
        [some (PNode.mk (5 : ℕ) none none none),
         some (PNode.mk (5 : ℕ) none none none)]
        (some (RT.node 0 (5 : ℕ) []).addr)
        (some (RT.node 1 (5 : ℕ) []).addr) =
        some (some (linkTree (RT.node 0 (5 : ℕ) [])
          (RT.node 1 (5 : ℕ) [])).addr, m') ∧
      treeRep m' (linkTree (RT.node 0 (5 : ℕ) []) (RT.node 1 (5 : ℕ) []))
        none none) ∧
    ((RT.node 1 (5 : ℕ) []).val < (RT.node 0 (5 : ℕ) []).val →
      linkTree (RT.node 0 (5 : ℕ) []) (RT.node 1 (5 : ℕ) []) =
        RT.node 1 5 [RT.node 0 5 []]) ∧
    ((RT.node 0 (5 : ℕ) []).val ≤ (RT.node 1 (5 : ℕ) []).val →
      linkTree (RT.node 0 (5 : ℕ) []) (RT.node 1 (5 : ℕ) []) =
        RT.node 0 5 [RT.node 1 5 []]) :=
  @claim_link ℕ _
    [some (PNode.mk (5 : ℕ) none none none),
     some (PNode.mk (5 : ℕ) none none none)]
    (RT.node 0 5 []) (RT.node 1 5 []) none none
    ⟨by rfl, trivial⟩ ⟨by rfl, trivial⟩ (by decide) (some 0)

/-- Claim C9: decrease_key on the current root changes only that node's
value: the root pointer, liveness, and the first_child, prev and next
links of every node are unchanged. -/
theorem claim_decrease_root_frame {h : Heap α} {token : Token}
    {n : PNode α} (hget : mget h.mem token = some n)
    (hroot : h.root = some token) (f : α → α) :
    ∃ h', h.decrease_key token f = some h' ∧
      h'.root = h.root ∧
      mget h'.mem token =
        some (PNode.mk (f n.value) n.first_child n.prev n.next) ∧
      (∀ a, a ≠ token → mget h'.mem a = mget h.mem a) ∧
      (∀ a, (mget h'.mem a).map PNode.first_child =
          (mget h.mem a).map PNode.first_child ∧
        (mget h'.mem a).map PNode.prev = (mget h.mem a).map PNode.prev ∧
        (mget h'.mem a).map PNode.next = (mget h.mem a).map PNode.next) := by
  refine ⟨_, decrease_key_root_spec hget hroot f, rfl,
    mget_mset_self hget _, ?_, ?_⟩
  · intro a ha
    exact mget_mset_ne _ ha _
  · intro a
    rcases eq_or_ne a token with rfl | ha
    · rw [mget_mset_self hget, hget]
      exact ⟨rfl, rfl, rfl⟩
    · rw [mget_mset_ne _ ha]
      exact ⟨rfl, rfl, rfl⟩

theorem claim_decrease_root_frame_witness :
    ∃ h', (⟨some 0, [some (PNode.mk (5 : ℕ) none none none)]⟩ :
        Heap ℕ).decrease_key 0 (fun _ => 3) = some h' ∧
      h'.root = (⟨some 0, [some (PNode.mk (5 : ℕ) none none none)]⟩ :
        Heap ℕ).root ∧
      mget h'.mem 0 = some (PNode.mk ((fun _ => 3)
        (PNode.mk (5 : ℕ) none none none).value)
        (PNode.mk (5 : ℕ) none none none).first_child
        (PNode.mk (5 : ℕ) none none none).prev
        (PNode.mk (5 : ℕ) none none none).next) ∧
      (∀ a, a ≠ 0 → mget h'.mem a =
        mget [some (PNode.mk (5 : ℕ) none none none)] a) ∧
      (∀ a, (mget h'.mem a).map PNode.first_child =
          (mget [some (PNode.mk (5 : ℕ) none none none)] a).map
            PNode.first_child ∧
        (mget h'.mem a).map PNode.prev =
          (mget [some (PNode.mk (5 : ℕ) none none none)] a).map PNode.prev ∧
        (mget h'.mem a).map PNode.next =
          (mget [some (PNode.mk (5 : ℕ) none none none)] a).map
            PNode.next) :=
  claim_decrease_root_frame (n := PNode.mk 5 none none none) (by rfl) rfl
    (fun _ => 3)

/-- Updating a value in place (the root shortcut of `decrease_key`)
preserves the structural invariant. -/
theorem mset_value_InvT {h : Heap α} {t : RT α} (hinv : InvT h t)
    {tok : Token} {n : PNode α} (hn : mget h.mem tok = some n) (f : α → α) :
    InvT ⟨h.root, mset h.mem tok
        (PNode.mk (f n.value) n.first_child n.prev n.next)⟩
      (updVal tok f t) := by
  obtain ⟨hre, ⟨pv, hrep⟩, hlive, hnd⟩ := hinv
  have hw : ∀ a, mget (mset h.mem tok
      (PNode.mk (f n.value) n.first_child n.prev n.next)) a =
      if a = tok
        then (mget h.mem a).map (fun q => { q with value := f q.value })
        else mget h.mem a := by
    intro a
    rcases eq_or_ne a tok with rfl | hna
    · rw [if_pos rfl, mget_mset_self hn, hn]
      rfl
    · rw [if_neg hna, mget_mset_ne _ hna]
  refine ⟨?_, ⟨pv, updVal_treeRep hw t pv none hrep⟩, ?_, ?_⟩
  · rw [updVal_addr]
    exact hre
  · intro a
    rw [addrsT_updVal]
    rcases eq_or_ne a tok with rfl | hna
    · rw [isSome_mget_mset hn]
      exact hlive a
    · rw [mget_mset_ne _ hna]
      exact hlive a
  · rw [addrsT_updVal]
    exact hnd

/-- Claim C4: when decrease_key makes a node's value strictly smaller than the
value of every other live node, the immediately following pop returns
that updated value. -/
theorem claim_decrease_below_pop {h : Heap α} {t : RT α} (hinv : InvT h t)
    {tok : Token} {n : PNode α} (hn : mget h.mem tok = some n) (f : α → α)
    (hbelow : ∀ a na, a ≠ tok → mget h.mem a = some na →
      f n.value < na.value) :
    ∃ h' h'', h.decrease_key tok f = some h' ∧
      h'.pop = some (some (f n.value), h'') := by
  by_cases he : tok = t.addr
  · subst he
    have heq := decrease_key_root_spec hn hinv.1 f
    obtain ⟨pv, hrep⟩ := hinv.2.1
    have hinv' := mset_value_InvT hinv hn f
    obtain ⟨h'', hpop, _⟩ := pop_spec hinv'
    refine ⟨_, h'', heq, ?_⟩
    have hnv : n.value = t.val := by
      have h3 := treeRep_node hrep
      rw [hn] at h3
      cases h3
      rfl
    have hv : (updVal t.addr f t).val = f n.value := by
      rw [updVal_val, if_pos rfl, hnv]
    rw [hv] at hpop
    exact hpop
  · have htok : tok ∈ addrsT t := (hinv.2.2.1 tok).mp (by rw [hn]; rfl)
    obtain ⟨pr, h', hcutT, hdk, hroot', hinv'⟩ :=
      decrease_key_spec hinv htok he f
    rw [cutT_updVal] at hcutT
    cases hp0 : cutT tok t with
    | none =>
      rw [hp0] at hcutT
      cases hcutT
    | some p0 =>
      rw [hp0] at hcutT
      simp only [Option.map_some'] at hcutT
      cases hcutT
      obtain ⟨pv, hrep⟩ := hinv.2.1
      obtain ⟨nn, hnn, hnnval⟩ := cutT_points tok t pv none p0 hrep hp0
      rw [hn] at hnn
      injection hnn with hnn2
      subst hnn2
      obtain ⟨ha1, ha2, hv2, hperm, _⟩ := cutT_perm tok t p0 hp0
      have hndp : (addrsT p0.1 ++ addrsT p0.2).Nodup :=
        hperm.nodup_iff.mp hinv.2.2.2
      rw [List.nodup_append] at hndp
      have h2nm : tok ∉ addrsT p0.2 :=
        fun hm => hndp.2.2 (ha1 ▸ addr_mem_addrsT p0.1) hm
      have hval1 : (updVal tok f p0.1).val = f n.value := by
        rw [updVal_val, if_pos ha1, hnnval]
      have hval2 : (updVal tok f p0.2).val = t.val := by
        rw [updVal_not_mem f p0.2 tok h2nm, hv2]
      have hlt : f n.value < t.val := by
        have h4 := hbelow t.addr (PNode.mk t.val (headAddr t.cs) pv none)
          (fun hx => he hx.symm) (treeRep_node hrep)
        exact h4
      have hlink : (linkTree (updVal tok f p0.2) (updVal tok f p0.1)).val
          = f n.value := by
        rw [linkTree, if_pos (by rw [hval1, hval2]; exact hlt),
          RT.val_node, hval1]
      obtain ⟨h'', hpop, _⟩ := pop_spec hinv'
      rw [hlink] at hpop
      exact ⟨h', h'', hdk, hpop⟩

theorem claim_decrease_below_pop_witness :
    ∃ h' h'', (⟨some 0, [some (PNode.mk (10 : ℕ) (some 1) none none),
        some (PNode.mk 20 none (some 0) none)]⟩ :
        Heap ℕ).decrease_key 1 (fun _ => 5) = some h' ∧
      h'.pop = some (some ((fun _ => (5 : ℕ))
        (PNode.mk (20 : ℕ) none (some 0) none).value), h'') := by
  refine claim_decrease_below_pop
    (t := RT.node 0 10 [RT.node 1 20 []])
    ⟨rfl, ⟨none, by exact ⟨rfl, ⟨rfl, trivial⟩, trivial⟩⟩, ?_, by decide⟩
    (by rfl) (fun _ => 5) ?_
  · intro a
    match a with
    | 0 => simp [mget, addrsT_def, addrsF]
    | 1 =>
      rw [show mget [some (PNode.mk (10 : ℕ) (some 1) none none),
        some (PNode.mk 20 none (some 0) none)] 1 =
          some (PNode.mk 20 none (some 0) none) from rfl]
      simp [addrsT_def, addrsF]
    | a + 2 =>
      rw [mget_none_of_le (by simp)]
      simp [addrsT_def, addrsF]
  · intro a na ha hget
    match a with
    | 0 =>
      rw [show mget [some (PNode.mk (10 : ℕ) (some 1) none none),
        some (PNode.mk 20 none (some 0) none)] 0 =
          some (PNode.mk 10 (some 1) none none) from rfl] at hget
      injection hget with hget2
      subst hget2
      decide
    | 1 => exact absurd rfl ha
    | a + 2 =>
      rw [mget_none_of_le (by simp)] at hget
      cases hget

/-- Claim C7, counterexample: the collection loop does not set the collected
nodes' predecessor (`prev`) links to absent.  On a parent at 0 with the
sibling chain 1, 2, collecting leaves node 2's `prev` still pointing at
node 1; what the loop nulls is each predecessor's `next` link. -/
theorem claim_collect_sever_counterexample :
    ∃ m', collect 4
        [some (PNode.mk (10 : ℕ) (some 1) none none),
         some (PNode.mk 5 none (some 0) (some 2)),
         some (PNode.mk 7 none (some 1) none)] (some 1) =
      some ([1, 2], m') ∧
      readF m' 2 PNode.prev = some (some 1) ∧
      readF m' 1 PNode.next = some none ∧
      (some (some 1) : Option (Option Nat)) ≠ some none := by
  exact ⟨_, rfl, rfl, rfl, by decide⟩

/-- Claim C7, amended: collecting the sibling roots severs each collected
subtree from its successor by nulling its `next` link (each node's
`next` is cleared through its successor's stale predecessor pointer),
while every collected node keeps its old non-null `prev`; and the
sequence handed to the forward pass is the collected one padded with
exactly one absent placeholder when its length is odd, hence always of
even length. -/
theorem claim_collect_sever_pad
    (rest : List (RT α)) (c : RT α) (p : Nat) (pn : PNode α) (m : Mem α)
    (fuel : Nat) (hsib : sibRep m p (c :: rest)) (hp : mget m p = some pn)
    (hnd : (addrsF (c :: rest)).Nodup) (hpn : p ∉ addrsF (c :: rest))
    (hfuel : (c :: rest).length < fuel) :
    (∃ m', collect fuel m (some c.addr) =
        some ((c :: rest).map RT.addr, m') ∧
      sevRep m' p (c :: rest) ∧
      mget m' p = some { pn with next := none }) ∧
    (∀ arr : List Nat,
      ((arr.map some ++ [none]).take
          ((arr.map some ++ [none]).length / 2 * 2) =
        if arr.length % 2 = 0 then arr.map some
        else arr.map some ++ [none]) ∧
      ((arr.map some ++ [none]).take
          ((arr.map some ++ [none]).length / 2 * 2)).length % 2 = 0) := by
  constructor
  · obtain ⟨m', h1, h2, h3, _, _⟩ :=
      collect_spec rest c p pn m fuel hsib hp hnd hpn hfuel
    exact ⟨m', h1, h2, h3⟩
  · intro arr
    have hlen : (arr.map some ++ [none] : List (Option Nat)).length =
        arr.length + 1 := by simp
    constructor
    · rw [hlen]
      rcases Nat.even_or_odd arr.length with he | ho
      · have he2 : arr.length % 2 = 0 := Nat.even_iff.mp he
        have hk : (arr.length + 1) / 2 * 2 = arr.length := by omega
        rw [hk, if_pos he2]
        exact List.take_left' (by simp)
      · have ho2 : ¬(arr.length % 2 = 0) := by
          have := Nat.odd_iff.mp ho
          omega
        have hk : (arr.length + 1) / 2 * 2 = arr.length + 1 := by
          have := Nat.odd_iff.mp ho
          omega
        rw [hk, if_neg ho2]
        exact List.take_of_length_le (by rw [hlen])
    · rw [List.length_take, hlen]
      omega

theorem claim_collect_sever_pad_witness :
    ((∃ m', collect 4
        [some (PNode.mk (10 : ℕ) (some 1) none none),
         some (PNode.mk 5 none (some 0) (some 2)),
         some (PNode.mk 7 none (some 1) none)]
        (some (RT.node 1 (5 : ℕ) []).addr) =
        some (([RT.node 1 (5 : ℕ) [], RT.node 2 7 []]).map RT.addr, m') ∧
      sevRep m' 0 [RT.node 1 (5 : ℕ) [], RT.node 2 7 []] ∧
      mget m' 0 = some { PNode.mk (10 : ℕ) (some 1) none none with
        next := none }) ∧
    (∀ arr : List Nat,
      ((arr.map some ++ [none]).take
          ((arr.map some ++ [none]).length / 2 * 2) =
        if arr.length % 2 = 0 then arr.map some
        else arr.map some ++ [none]) ∧
      ((arr.map some ++ [none]).take
          ((arr.map some ++ [none]).length / 2 * 2)).length % 2 = 0)) :=
  claim_collect_sever_pad [RT.node 2 7 []] (RT.node 1 (5 : ℕ) []) 0
    (PNode.mk 10 (some 1) none none)
    [some (PNode.mk (10 : ℕ) (some 1) none none),
     some (PNode.mk 5 none (some 0) (some 2)),
     some (PNode.mk 7 none (some 1) none)] 4
    ⟨⟨by rfl, trivial⟩, ⟨by rfl, trivial⟩, trivial⟩ (by rfl)
    (by decide) (by decide) (by decide)

/-- Claim C8: sibling-combine is never entered with zero children — pop sets
the root to absent directly when the removed root is a leaf — and on a
single sibling (null `next`) it returns that sibling immediately, the
memory untouched, without running either pass. -/
theorem claim_combine_edges {h : Heap α} {t : RT α} (hinv : InvT h t)
    (hleaf : t.cs = []) {m : Mem α} {r : Nat} {n : PNode α}
    (hr : mget m r = some n) (hnext : n.next = none) :
    h.pop = some (some t.val, ⟨none, mdel h.mem t.addr⟩) ∧
    combine_siblings m r = some (some r, m) := by
  constructor
  · obtain ⟨hroot, ⟨pv, hrep⟩, _, _⟩ := hinv
    cases t with
    | node a v cs =>
      rw [RT.cs_node] at hleaf
      subst hleaf
      rw [treeRep, headAddr] at hrep
      rw [RT.addr_node] at hroot
      simp only [Heap.pop, hroot, hrep.1, Option.bind_eq_bind,
        Option.some_bind, RT.val_node, RT.addr_node]
  · rw [combine_siblings]
    simp only [Option.bind_eq_bind, hr, Option.some_bind, if_pos hnext]

theorem claim_combine_edges_witness :
    (⟨some 0, [some (PNode.mk (5 : ℕ) none none none)]⟩ : Heap ℕ).pop =
      some (some (RT.node 0 (5 : ℕ) []).val,
        ⟨none, mdel [some (PNode.mk (5 : ℕ) none none none)]
          (RT.node 0 (5 : ℕ) []).addr⟩) ∧
    combine_siblings [some (PNode.mk (5 : ℕ) none none none)] 0 =
      some (some 0, [some (PNode.mk (5 : ℕ) none none none)]) := by
  refine claim_combine_edges (t := RT.node 0 (5 : ℕ) [])
    ⟨rfl, ⟨none, by exact ⟨rfl, trivial⟩⟩, ?_, by decide⟩ rfl (by rfl) rfl
  intro a
  match a with
  | 0 => simp [mget, addrsT_def, addrsF]
  | a + 1 =>
    rw [mget_none_of_le (by simp)]
    simp [addrsT_def, addrsF]

/-- Claim C10: in every reachable state each live non-root node has a
non-null `prev` link, and therefore decrease_key's unconditional
dereference of a valid token's `prev` succeeds: decrease_key is defined
(no null or dead dereference) on every live token. -/
theorem claim_nonroot_prev {h : Heap α} (hr : Reach h) :
    (∀ a n, mget h.mem a = some n → h.root ≠ some a →
      ∃ p, n.prev = some p) ∧
    (∀ tok (f : α → α), (mget h.mem tok).isSome = true →
      ∃ h', h.decrease_key tok f = some h') := by
  have hInv := Reach_Inv hr
  constructor
  · intro a n hn hroot
    rcases hInv with ⟨hre, hdead⟩ | ⟨t, hinvt⟩
    · rw [hdead a] at hn
      cases hn
    · have ha : a ∈ addrsT t := (hinvt.2.2.1 a).mp (by rw [hn]; rfl)
      have hne : a ≠ t.addr := by
        intro he
        apply hroot
        rw [he]
        exact hinvt.1
      obtain ⟨pv, hrep⟩ := hinvt.2.1
      obtain ⟨nn, p, hnn, hp⟩ := treeRep_prev_some t pv none hrep a ha hne
      rw [hn] at hnn
      injection hnn with hnn2
      subst hnn2
      exact ⟨p, hp⟩
  · intro tok f hs
    rcases hInv with ⟨hre, hdead⟩ | ⟨t, hinvt⟩
    · rw [hdead tok] at hs
      cases hs
    · obtain ⟨n, hn⟩ := Option.isSome_iff_exists.mp hs
      by_cases he : tok = t.addr
      · refine ⟨_, decrease_key_root_spec hn ?_ f⟩
        rw [he]
        exact hinvt.1
      · have htok : tok ∈ addrsT t := (hinvt.2.2.1 tok).mp hs
        obtain ⟨pr, h', _, hdk, _, _⟩ := decrease_key_spec hinvt htok he f
        exact ⟨h', hdk⟩

theorem claim_nonroot_prev_witness :
    (∀ a n, mget (⟨some 1, [some (PNode.mk (1 : ℕ) none (some 1) none),
        some (PNode.mk 0 (some 0) none none)]⟩ : Heap ℕ).mem a = some n →
      (⟨some 1, [some (PNode.mk (1 : ℕ) none (some 1) none),
        some (PNode.mk 0 (some 0) none none)]⟩ : Heap ℕ).root ≠ some a →
      ∃ p, n.prev = some p) ∧
    (∀ tok (f : ℕ → ℕ),
      (mget (⟨some 1, [some (PNode.mk (1 : ℕ) none (some 1) none),
        some (PNode.mk 0 (some 0) none none)]⟩ : Heap ℕ).mem tok).isSome
        = true →
      ∃ h', (⟨some 1, [some (PNode.mk (1 : ℕ) none (some 1) none),
        some (PNode.mk 0 (some 0) none none)]⟩ :
          Heap ℕ).decrease_key tok f = some h') :=
  claim_nonroot_prev (@Reach.push ℕ _
    ⟨some 0, [some (PNode.mk (1 : ℕ) none none none)]⟩
    ⟨some 1, [some (PNode.mk (1 : ℕ) none (some 1) none),
      some (PNode.mk 0 (some 0) none none)]⟩ 0 1
    (@Reach.push ℕ _ Heap.new
      ⟨some 0, [some (PNode.mk (1 : ℕ) none none none)]⟩ 1 0
      Reach.new (by decide))
    (by decide))

end PairingHeap